import Mathlib

/-!
# Register calculator: parser and lazy evaluator

A shallow embedding of `definitions.h`, `parser.cpp` and `evaluator.cpp`.

* Strings are Lean strings; a token is classified by looking at its characters.
* `std::cout` is a list of `Output` lines, oldest first.
* The symbol table (`std::unordered_map`) is its lookup function: the code only ever
  uses `find`, `operator[]` and assignment on it, never its iteration order.
* `long` is a 64-bit two's complement integer: an `Int` that is wrapped after each
  arithmetic step.
* `evaluateValue` recurses through the symbol table without any bound, so its
  embedding takes a recursion budget and answers `none` when the budget is used up.
* `std::stol` throws on the empty string and on a literal beyond `long`; nothing in the
  program catches it, so the exception is an outcome of its own.
* The input stream is the list of whitespace separated words that `operator>>` still
  has to deliver.
-/

namespace Calculator

/-! ## definitions.h -/

/-- The `Operand` enumeration. -/
inductive Operand where
  | ADD
  | SUBTRACT
  | MULTIPLY
  | PRINT
  | QUIT
  deriving DecidableEq, Repr

open Operand

/-- An instruction is the tuple operand, register, value. -/
abbrev Instruction := Operand × String × String

/-- The instruction queue, front first. -/
abbrev Instructions := List Instruction

namespace Token

/-- Return true if the input token is a quit operand. -/
def isQuitOperand (tok : String) : Bool := decide (tok = "quit")

/-- Return true if the input token is a print operand. -/
def isPrintOperand (tok : String) : Bool := decide (tok = "print")

/-- Return true if the input token is an add operand. -/
def isAddOperand (tok : String) : Bool := decide (tok = "add")

/-- Return true if the input token is a subtract operand. -/
def isSubtractOperand (tok : String) : Bool := decide (tok = "subtract")

/-- Return true if the input token is a multiply operand. -/
def isMultiplyOperand (tok : String) : Bool := decide (tok = "multiply")

/-- Return true if the input token is any of the keyword operands. -/
def isKeyword (tok : String) : Bool :=
  isQuitOperand tok || isPrintOperand tok || isAddOperand tok
    || isSubtractOperand tok || isMultiplyOperand tok

/-- The character class `[0-9]`. -/
def isDigitChar (c : Char) : Bool := decide ('0' ≤ c) && decide (c ≤ '9')

/-- The character class `[a-zA-Z0-9]`. -/
def isAlnumChar (c : Char) : Bool :=
  (decide ('a' ≤ c) && decide (c ≤ 'z')) || (decide ('A' ≤ c) && decide (c ≤ 'Z'))
    || isDigitChar c

/-- Return true if the input token is a number: a full match of `[0-9]*`. -/
def isNumber (tok : String) : Bool := tok.data.all isDigitChar

/-- Return true if the input token is a register name: a full match of
`[a-zA-Z0-9]*` that is neither a number nor a keyword. -/
def isRegister (tok : String) : Bool :=
  tok.data.all isAlnumChar && !isNumber tok && !isKeyword tok

end Token

/-! ## Console output -/

/-- One line written to `std::cout`. -/
inductive Output where
  /-- The line `std::cout << value << std::endl` of `printRegister`. -/
  | printed (value : Int)
  /-- The lookup error of `evaluateValue`. -/
  | lookupError (name : String)
  /-- The invalid start of expression error of `parse`. -/
  | invalidStart (tok : String)
  /-- The error of `parsePrintInstruction`. -/
  | printNeedsRegister
  /-- The first error of `parseArithmeticInstruction`. -/
  | missingOperand (reg : String)
  /-- The second error of `parseArithmeticInstruction`. -/
  | missingValue
  deriving DecidableEq, Repr

/-- The characters of each output line. -/
def Output.text : Output → String
  | .printed value => toString value
  | .lookupError name => "Lookup Error: No register named '" ++ name ++ "'."
  | .invalidStart tok => "Syntax Error: '" ++ tok ++ "' is an invalid start of expression."
  | .printNeedsRegister => "Syntax Error: 'print' must be followed by a register."
  | .missingOperand reg =>
      "Syntax Error: Missing or invalid operand after register '" ++ reg ++ "'."
  | .missingValue => "Syntax Error: Missing or invalid value after operand."

/-! ## evaluator.h / evaluator.cpp -/

/-- An operation on a register: operand and value token. -/
abbrev Operation := Operand × String

/-- The list of operations on a register, oldest first. -/
abbrev Operations := List Operation

/-- The symbol table: `none` when `find` gives `end()`. -/
abbrev SymbolTable := String → Option Operations

/-- The symbol table of a fresh `Evaluator`. -/
def emptyTable : SymbolTable := fun _ => none

/-- Largest value of `long`. -/
def LONG_MAX : Int := 2 ^ 63 - 1

/-- Smallest value of `long`. -/
def LONG_MIN : Int := -(2 ^ 63)

/-- The value fits in a `long`. -/
def inLongRange (x : Int) : Prop := LONG_MIN ≤ x ∧ x ≤ LONG_MAX

instance (x : Int) : Decidable (inLongRange x) := by
  unfold inLongRange; infer_instance

/-- Two's complement reduction of an integer to 64 bits. -/
def wrapLong (x : Int) : Int := (x + 2 ^ 63) % 2 ^ 64 - 2 ^ 63

/-- The exceptions of `std::stol`. -/
inductive Exception where
  | invalid_argument
  | out_of_range
  deriving DecidableEq, Repr

deriving instance DecidableEq for Except

/-- Base 10 value of a string of digits, most significant first. -/
def digitsValue (cs : List Char) : Nat :=
  cs.foldl (fun acc c => 10 * acc + (c.toNat - 48)) 0

/-- The call `std::stol(value)` on a token that passed `isNumber`: no conversion is
possible on the empty string, and a value beyond `long` is out of range. -/
def stol (value : String) : Except Exception Int :=
  if value.data = [] then .error .invalid_argument
  else if (digitsValue value.data : Int) ≤ LONG_MAX then .ok (digitsValue value.data)
  else .error .out_of_range

/-- How a call of `evaluateValue` ends. -/
inductive Eval where
  /-- It returned true and set `outvalue`. -/
  | ok (outvalue : Int)
  /-- It returned false. -/
  | fail
  /-- The exception of `std::stol` left it. -/
  | thrown (e : Exception)
  deriving DecidableEq, Repr

/-- The `switch (operand)` of `evaluateValue`: the new value of `res`. PRINT and QUIT
have no case and leave `res` as it is. -/
def applyOperand (operand : Operand) (res val : Int) : Int :=
  match operand with
  | ADD => wrapLong (res + val)
  | SUBTRACT => wrapLong (res - val)
  | MULTIPLY => wrapLong (res * val)
  | PRINT => res
  | QUIT => res

/-- The `for (Operation operation : operations)` loop of `evaluateValue`, started with
the accumulator `res`; `ev` is the recursive call. -/
def evaluateOperations (ev : String → Option (List Output × Eval)) :
    Operations → Int → Option (List Output × Eval)
  | [], res => some ([], .ok res)
  | (operand, operandvalue) :: rest, res =>
    match ev operandvalue with
    | none => none
    | some (out, .ok val) =>
      match evaluateOperations ev rest (applyOperand operand res val) with
      | none => none
      | some (out2, r) => some (out ++ out2, r)
    | some (out, .fail) => some (out, .fail)
    | some (out, .thrown e) => some (out, .thrown e)

/-- The method `Evaluator::evaluateValue` with a bound on the depth of its recursion:
the lines written and how the call ended, or `none` when the bound is reached. -/
def evaluateValue (registers : SymbolTable) : Nat → String → Option (List Output × Eval)
  | 0, _ => none
  | fuel + 1, value =>
    if Token.isNumber value then
      match stol value with
      | .ok outvalue => some ([], .ok outvalue)
      | .error e => some ([], .thrown e)
    else
      match registers value with
      | none => some ([.lookupError value], .fail)
      | some operations => evaluateOperations (evaluateValue registers fuel) operations 0

/-- The method `Evaluator::printRegister`. -/
def printRegister (registers : SymbolTable) (fuel : Nat) (reg : String) :
    Option (List Output × Option Exception) :=
  match evaluateValue registers fuel reg with
  | none => none
  | some (out, .ok value) => some (out ++ [.printed value], none)
  | some (out, .fail) => some (out, none)
  | some (out, .thrown e) => some (out, some e)

/-- The method `Evaluator::addArithmeticOperation`: `registers[reg]` is the empty list
when the key is new. -/
def addArithmeticOperation (registers : SymbolTable) (op : Operand) (reg value : String) :
    SymbolTable :=
  let operations := (registers reg).getD []
  let operations := operations ++ [(op, value)]
  fun key => if key = reg then some operations else registers key

/-- How a call of `execute` ends: with its return value, or with an exception. -/
inductive Signal where
  | returned (running : Bool)
  | threw (e : Exception)
  deriving DecidableEq, Repr

/-- The state a call of `execute` leaves behind. -/
structure Run where
  /-- The return value, false after a quit. -/
  signal : Signal
  /-- The symbol table. -/
  registers : SymbolTable
  /-- The instructions left in the queue. -/
  instructions : Instructions
  /-- The lines written. -/
  out : List Output

/-- Put earlier output in front of the output of a run. -/
def Run.after (out : List Output) (r : Run) : Run :=
  { r with out := out ++ r.out }

/-- The method `Evaluator::execute`; `fuel` bounds the recursion of each evaluation. -/
def execute (fuel : Nat) : SymbolTable → Instructions → Option Run
  | registers, [] => some ⟨.returned true, registers, [], []⟩
  | registers, (op, reg, value) :: instructions =>
    match op with
    | QUIT => some ⟨.returned false, registers, instructions, []⟩
    | PRINT =>
      match printRegister registers fuel reg with
      | none => none
      | some (out, some e) => some ⟨.threw e, registers, instructions, out⟩
      | some (out, none) => (execute fuel registers instructions).map (Run.after out)
    | _ => execute fuel (addArithmeticOperation registers op reg value) instructions

/-! ## parser.h / parser.cpp -/

/-- The input stream: the words that `operator>>` has yet to deliver, next one first. -/
abbrev IStream := List String

/-- The call `std::transform(token.begin(), token.end(), token.begin(), ::tolower)`. -/
def toLower (token : String) : String := ⟨token.data.map Char.toLower⟩

/-- The method `Parser::readToken`: the token, when there was one, and the stream
after the read. -/
def readToken (inputstream : IStream) : Option String × IStream :=
  match inputstream with
  | [] => (none, [])
  | token :: rest => (some (toLower token), rest)

/-- The method `Parser::readArithmeticOperand`. -/
def readArithmeticOperand (inputstream : IStream) : Option Operand × IStream :=
  match readToken inputstream with
  | (some op, rest) =>
    if Token.isAddOperand op then (some ADD, rest)
    else if Token.isSubtractOperand op then (some SUBTRACT, rest)
    else if Token.isMultiplyOperand op then (some MULTIPLY, rest)
    else (none, rest)
  | (none, rest) => (none, rest)

/-- The method `Parser::readRegister`. -/
def readRegister (inputstream : IStream) : Option String × IStream :=
  match readToken inputstream with
  | (some reg, rest) => if Token.isRegister reg then (some reg, rest) else (none, rest)
  | (none, rest) => (none, rest)

/-- The method `Parser::readValue`. -/
def readValue (inputstream : IStream) : Option String × IStream :=
  match readToken inputstream with
  | (some val, rest) =>
    if Token.isNumber val || Token.isRegister val then (some val, rest) else (none, rest)
  | (none, rest) => (none, rest)

/-- The method `Parser::addInstruction`; a caller that leaves out the register or the
value passes the default, the empty string. -/
def addInstruction (instructions : Instructions) (op : Operand) (reg val : String) :
    Instructions :=
  instructions ++ [(op, reg, val)]

/-- What a parsing method leaves behind: the queue, the lines written and the stream. -/
structure Parsed where
  /-- The instruction queue. -/
  instructions : Instructions
  /-- The lines written. -/
  out : List Output
  /-- The rest of the input stream. -/
  inputstream : IStream
  deriving DecidableEq, Repr

/-- The method `Parser::parsePrintInstruction`. -/
def parsePrintInstruction (instructions : Instructions) (inputstream : IStream) : Parsed :=
  match readRegister inputstream with
  | (some reg, rest) => ⟨addInstruction instructions PRINT reg "", [], rest⟩
  | (none, rest) => ⟨instructions, [.printNeedsRegister], rest⟩

/-- The method `Parser::parseArithmeticInstruction`: both reads are always made. -/
def parseArithmeticInstruction (instructions : Instructions) (inputstream : IStream)
    (reg : String) : Parsed :=
  let (readOperand, afterOperand) := readArithmeticOperand inputstream
  let (readVal, afterValue) := readValue afterOperand
  let instructions :=
    match readOperand, readVal with
    | some op, some value => addInstruction instructions op reg value
    | _, _ => instructions
  let out1 : List Output := if readOperand.isSome then [] else [.missingOperand reg]
  let out2 : List Output := if readVal.isSome then [] else [.missingValue]
  ⟨instructions, out1 ++ out2, afterValue⟩

/-- The body of the `while` loop of `Parser::parse`, for the token `input` just read. -/
def parseToken (instructions : Instructions) (input : String) (inputstream : IStream) :
    Parsed :=
  if Token.isQuitOperand input then
    ⟨addInstruction instructions QUIT "" "", [], inputstream⟩
  else if Token.isPrintOperand input then
    parsePrintInstruction instructions inputstream
  else if Token.isRegister input then
    parseArithmeticInstruction instructions inputstream input
  else
    ⟨instructions, [.invalidStart input], inputstream⟩

/-- The `while ( readToken(inputstream, input) )` loop of `Parser::parse`, running at
most `n` times. -/
def parseLoop : Nat → Instructions → IStream → Instructions × List Output
  | 0, instructions, _ => (instructions, [])
  | n + 1, instructions, inputstream =>
    match readToken inputstream with
    | (none, _) => (instructions, [])
    | (some input, rest) =>
      let step := parseToken instructions input rest
      let (instructions, out) := parseLoop n step.instructions step.inputstream
      (instructions, step.out ++ out)

/-- The method `Parser::parse`: the queue after the call and the lines written. Every
round of the loop takes a word off the stream, so the loop runs at most once per word. -/
def parse (instructions : Instructions) (inputstream : IStream) :
    Instructions × List Output :=
  parseLoop inputstream.length instructions inputstream

/-- The whitespace of `operator>>`: the characters of `std::isspace` in the C locale. -/
def isSpace (c : Char) : Bool :=
  c == ' ' || c == '\t' || c == '\n' || c == Char.ofNat 11 || c == Char.ofNat 12 || c == '\r'

/-- The words that repeated `inputstream >> token` takes from a text: each read skips
the whitespace in front and takes the characters up to the next whitespace; `word`
holds the characters of the word under way, last one first. -/
def extractWords : List Char → List Char → IStream
  | [], word => if word = [] then [] else [⟨word.reverse⟩]
  | c :: text, word =>
    if isSpace c then
      if word = [] then extractWords text [] else ⟨word.reverse⟩ :: extractWords text []
    else extractWords text (c :: word)

/-- The input stream over a text. -/
def istream (text : String) : IStream := extractWords text.data []

/-- One round of the loop of `main` on an input stream with an empty queue: the stream
is parsed, then the queue is executed; the lines of the parser come first. -/
def runStream (fuel : Nat) (T : SymbolTable) (inputstream : IStream) : Option Run :=
  (execute fuel T (parse [] inputstream).1).map (Run.after (parse [] inputstream).2)

/-- One round of the loop of `main` on a line read from the console. -/
def runLine (fuel : Nat) (T : SymbolTable) (line : String) : Option Run :=
  runStream fuel T (istream line)

/-! ## Notions used to state the properties -/

/-- The call `evaluateValue(value)` comes to an end: it writes `out` and ends as `res`,
for a recursion bound that is large enough. -/
def Evaluates (registers : SymbolTable) (value : String) (out : List Output) (res : Eval) :
    Prop :=
  ∃ fuel, evaluateValue registers fuel value = some (out, res)

/-- One step of the fold over unbounded integers: add, subtract or multiply the
accumulator by the value; any other operand leaves it alone. -/
def applyExact (operand : Operand) (res val : Int) : Int :=
  match operand with
  | ADD => res + val
  | SUBTRACT => res - val
  | MULTIPLY => res * val
  | PRINT => res
  | QUIT => res

/-- The operations of a register paired with the values their tokens evaluated to. -/
def steps (operations : Operations) (vals : List Int) : List (Operand × Int) :=
  List.zipWith (fun (operation : Operation) val => (operation.1, val)) operations vals

/-- The left-to-right fold over unbounded integers. -/
def exactFold (acc : Int) (l : List (Operand × Int)) : Int :=
  l.foldl (fun res step => applyExact step.1 res step.2) acc

/-- The left-to-right fold over `long`. -/
def longFold (acc : Int) (l : List (Operand × Int)) : Int :=
  l.foldl (fun res step => applyOperand step.1 res step.2) acc

/-- No intermediate value of the fold over unbounded integers leaves the range of `long`. -/
def staysInRange : Int → List (Operand × Int) → Bool
  | _, [] => true
  | acc, (operand, val) :: rest =>
    decide (inLongRange (applyExact operand acc val))
      && staysInRange (applyExact operand acc val) rest

/-- The table after `a add 5`, `a multiply 2`, `a subtract 3`. -/
def chainTable : SymbolTable :=
  fun key => if key = "a" then some [(ADD, "5"), (MULTIPLY, "2"), (SUBTRACT, "3")] else none

/-- The instruction is an arithmetic one: add, subtract or multiply. -/
def isArithmetic (i : Instruction) : Bool :=
  match i.1 with
  | ADD => true
  | SUBTRACT => true
  | MULTIPLY => true
  | PRINT => false
  | QUIT => false

/-- The instructions of a sequence that are made against register `r`, in order. -/
def against (r : String) (P : Instructions) : Instructions :=
  P.filter (fun i => decide (i.2.1 = r))

/-- The table after recording the instructions of a sequence, one after the other. -/
def recordAll (T : SymbolTable) (P : Instructions) : SymbolTable :=
  P.foldl (fun registers i => addArithmeticOperation registers i.1 i.2.1 i.2.2) T

/-- The lines written by a run, when it came to an end. -/
def outputOf (r : Option Run) : Option (List Output) := r.map (fun run => run.out)

/-- The instruction is a quit. -/
def isQuit (i : Instruction) : Bool :=
  match i.1 with
  | QUIT => true
  | _ => false

/-- The queue holds a quit. -/
def hasQuit (Q : Instructions) : Bool := Q.any isQuit

/-- The instructions in front of the first quit; all of them when there is no quit. -/
def beforeQuit (Q : Instructions) : Instructions := Q.takeWhile (fun i => !isQuit i)

/-- The instructions behind the first quit; none when there is no quit. -/
def afterQuit (Q : Instructions) : Instructions := (Q.dropWhile (fun i => !isQuit i)).drop 1

/-- The table after `a add a`: the register depends on itself. -/
def cycleTable : SymbolTable :=
  fun key => if key = "a" then some [(ADD, "a")] else none

/-- The first register without an entry that a depth-first, left-to-right walk from
`value` through the operation lists comes to, within `fuel` levels. -/
def firstUndefined (T : SymbolTable) : Nat → String → Option String
  | 0, _ => none
  | fuel + 1, value =>
    if Token.isNumber value then none
    else
      match T value with
      | none => some value
      | some operations => operations.findSome? (fun e => firstUndefined T fuel e.2)

/-- The run of `a add 5` on the empty table. -/
def quitRun : Run :=
  ⟨.returned true, addArithmeticOperation emptyTable ADD "a" "5", [], []⟩

/-- The outcome of a call of `evaluateValue` fits what the walk `firstUndefined` found:
a call that returns true wrote nothing and the walk found nothing; a call that returns
false wrote one lookup error, for the register the walk found, which has no entry. -/
def walkAgrees (T : SymbolTable) (found : Option String) (out : List Output) : Eval → Prop
  | .ok _ => found = none ∧ out = []
  | .fail => ∃ name, found = some name ∧ out = [.lookupError name] ∧ T name = none
      ∧ Token.isNumber name = false
  | .thrown _ => True

/-- Register `r` references register `s`: neither token is a number, and `s` is the
value of an entry of the operation list of `r`. -/
def references (T : SymbolTable) (r s : String) : Prop :=
  Token.isNumber r = false ∧ Token.isNumber s = false
    ∧ ∃ ops, T r = some ops ∧ ∃ op, (op, s) ∈ ops

/-- The register dependencies are acyclic: there is no endless chain of references. -/
def Acyclic (T : SymbolTable) : Prop :=
  WellFounded (fun s r => references T r s)

/-- Register `s` is `r` or is referenced from `r` through any number of registers. -/
def Reaches (T : SymbolTable) (r s : String) : Prop :=
  Relation.ReflTransGen (references T) r s

/-- The numeric literals of the table are in range: `std::stol` converts every value
token that is a number. -/
def literalsInRange (T : SymbolTable) : Prop :=
  ∀ r ops op s, T r = some ops → (op, s) ∈ ops → Token.isNumber s = true →
    ∃ v, stol s = .ok v

/-- The table after `a add b`, `b add 1`. -/
def forwardTable : SymbolTable :=
  fun key => if key = "a" then some [(ADD, "b")]
    else if key = "b" then some [(ADD, "1")] else none

/-- The result of a parse with the lines `out` written in front of its own. -/
def emit (out : List Output) (p : Instructions × List Output) : Instructions × List Output :=
  (p.1, out ++ p.2)

/-- The operand a token names, when the token is add, subtract or multiply. -/
def arithmeticKeyword (tok : String) : Option Operand :=
  if tok = "add" then some ADD
  else if tok = "subtract" then some SUBTRACT
  else if tok = "multiply" then some MULTIPLY
  else none

/-- The token is a number or a register. -/
def isValue (tok : String) : Bool := Token.isNumber tok || Token.isRegister tok

/-- The instruction is well-formed: a quit has no register and no value, a print has a
register and no value, an arithmetic instruction has a register and a value that is a
number or a register. -/
def wellFormed (i : Instruction) : Bool :=
  match i.1 with
  | QUIT => decide (i.2.1 = "") && decide (i.2.2 = "")
  | PRINT => Token.isRegister i.2.1 && decide (i.2.2 = "")
  | _ => Token.isRegister i.2.1 && (Token.isNumber i.2.2 || Token.isRegister i.2.2)

/-- The pairs of operand and value of the arithmetic instructions of `L` in front of its
first quit whose register is `r`, in the order of `L`. -/
def recorded (r : String) (L : Instructions) : Operations :=
  ((beforeQuit L).filter (fun i => isArithmetic i && decide (i.2.1 = r))).map
    (fun i => (i.1, i.2.2))

/-- Every key of the symbol table is a register name. -/
def keysAreRegisters (T : SymbolTable) : Prop :=
  ∀ key, (T key).isSome = true → Token.isRegister key = true

/-- The symbol tables of the rounds of `main`: the table starts empty, and a round
parses some input into the empty queue and executes the queue on the table. -/
inductive Reachable : SymbolTable → Prop where
  | start : Reachable emptyTable
  | round (T : SymbolTable) (input : IStream) (fuel : Nat) (run : Run) :
      Reachable T → execute fuel T (parse [] input).1 = some run → Reachable run.registers

/-- What a run shows to the outside: its signal, its symbol table and its output. -/
def Run.outcome (r : Run) : Signal × SymbolTable × List Output :=
  (r.signal, r.registers, r.out)

/-- A call of `execute` on `Q1` followed by a call on `Q2` on the same evaluator; an
exception in the first call ends the program. -/
def executeThen (fuel : Nat) (T : SymbolTable) (Q1 Q2 : Instructions) : Option Run :=
  match execute fuel T Q1 with
  | none => none
  | some first =>
    match first.signal with
    | .threw _ => some first
    | .returned _ => (execute fuel first.registers Q2).map (Run.after first.out)

/-- The run of `a add 5`, `print a`, `a multiply 2`, `quit`, `a add 1` on the empty
table. -/
def recordedRun : Run :=
  ⟨.returned false,
    addArithmeticOperation (addArithmeticOperation emptyTable ADD "a" "5") MULTIPLY "a" "2",
    [(ADD, "a", "1")], [.printed 5]⟩

/-- The ASCII letters. -/
def letters : List Char := "abcdefghijklmnopqrstuvwxyzABCDEFGHIJKLMNOPQRSTUVWXYZ".data

/-- The decimal digits. -/
def digits : List Char := "0123456789".data

/-- The five keywords. -/
def keywords : List String := ["quit", "print", "add", "subtract", "multiply"]

/-- The integer a string of digits denotes, read as an unsigned base 10 numeral: the
last character is the units digit. Leading zeros add nothing. -/
def denoted (T : String) : Nat :=
  Nat.ofDigits 10 (T.data.reverse.map (fun c => c.toNat - 48))

/-- The evaluation of register `r` comes to the entry with value `s` of its operation
list: `r` is no number and every entry in front of that one evaluates to a value. -/
def descends (T : SymbolTable) (r s : String) : Prop :=
  Token.isNumber r = false
    ∧ ∃ pre op post, T r = some (pre ++ (op, s) :: post)
      ∧ ∀ e ∈ pre, ∃ v, Evaluates T e.2 [] (.ok v)

/-- The table after `a add b`, `b add a`. -/
def twoCycleTable : SymbolTable :=
  fun key => if key = "a" then some [(ADD, "b")]
    else if key = "b" then some [(ADD, "a")] else none

/-- The register and the value of the instruction are in lower case: the conversion
to lower case leaves them as they are. -/
def inLowerCase (i : Instruction) : Prop :=
  toLower i.2.1 = i.2.1 ∧ toLower i.2.2 = i.2.2

/-- The symbol tables of the rounds of `main` on input texts: the table starts empty,
and a round parses a text into the empty queue and executes the queue on the table. -/
inductive Built : SymbolTable → Prop where
  | start : Built emptyTable
  | round (T : SymbolTable) (text : String) (fuel : Nat) (run : Run) :
      Built T → execute fuel T (parse [] (istream text)).1 = some run → Built run.registers

/-- The fields that the instruction has are not empty: the register of a print, the
register and the value of an arithmetic instruction. A print has no value and a quit
has neither. -/
def nonEmptyFields (i : Instruction) : Prop :=
  match i.1 with
  | QUIT => True
  | PRINT => i.2.1 ≠ ""
  | _ => i.2.1 ≠ "" ∧ i.2.2 ≠ ""

/-- No value token stored in the table is the empty string. -/
def valuesNonEmpty (T : SymbolTable) : Prop :=
  ∀ r ops op v, T r = some ops → (op, v) ∈ ops → v ≠ ""

/-- The run of the text `a add 5` on the empty table. -/
def textRun : Run :=
  ⟨.returned true, addArithmeticOperation emptyTable ADD "a" "5", [], []⟩

/-- The tokens make up complete instructions without a quit: each group is `print`
and a register, or a register, an arithmetic operand and a value. -/
inductive Complete : IStream → Prop where
  | nil : Complete []
  | print (p t : String) (rest : IStream) :
      Token.isPrintOperand (toLower p) = true → Token.isRegister (toLower t) = true →
      Complete rest → Complete (p :: t :: rest)
  | arithmetic (r t1 t2 : String) (rest : IStream) :
      Token.isRegister (toLower r) = true → (arithmeticKeyword (toLower t1)).isSome = true →
      isValue (toLower t2) = true → Complete rest → Complete (r :: t1 :: t2 :: rest)

/-- One token of a reached set is the token the evaluation starts from or a value token
of the operation list of a reached register: the tokens on which `evaluateValue` can be
called in an evaluation that starts from `tok`. -/
inductive Called (T : SymbolTable) (tok : String) : String → Prop where
  | start : Called T tok tok
  | entry (r : String) (ops : Operations) (op : Operand) (v : String) :
      Called T tok r → T r = some ops → (op, v) ∈ ops → Called T tok v

/-! ## General facts about the evaluator -/

theorem evaluateOperations_mono {ev ev2 : String → Option (List Output × Eval)}
    (h : ∀ v r, ev v = some r → ev2 v = some r) :
    ∀ (ops : Operations) (acc : Int) (r : List Output × Eval),
      evaluateOperations ev ops acc = some r → evaluateOperations ev2 ops acc = some r := by
  intro ops
  induction ops with
  | nil => intro acc r hr; simpa [evaluateOperations] using hr
  | cons e rest ih =>
    intro acc r hr
    obtain ⟨operand, operandvalue⟩ := e
    simp only [evaluateOperations] at hr ⊢
    cases hev : ev operandvalue with
    | none => simp [hev] at hr
    | some p =>
      obtain ⟨out, res⟩ := p
      rw [h _ _ hev]
      rw [hev] at hr
      cases res with
      | ok val =>
        simp only at hr ⊢
        cases hrest : evaluateOperations ev rest (applyOperand operand acc val) with
        | none => simp [hrest] at hr
        | some q =>
          rw [ih _ _ hrest]
          rw [hrest] at hr
          exact hr
      | fail => exact hr
      | thrown e => exact hr

theorem evaluateValue_succ (T : SymbolTable) :
    ∀ (fuel : Nat) (value : String) (r : List Output × Eval),
      evaluateValue T fuel value = some r → evaluateValue T (fuel + 1) value = some r := by
  intro fuel
  induction fuel with
  | zero => intro value r h; simp [evaluateValue] at h
  | succ n ih =>
    intro value r h
    rw [evaluateValue] at h ⊢
    split
    · rename_i hnum; simpa [hnum] using h
    · rename_i hnum
      simp only [hnum] at h
      cases hT : T value with
      | none => simpa [hT] using h
      | some ops =>
        simp only [hT] at h ⊢
        exact evaluateOperations_mono (ih) ops 0 r h

theorem evaluateValue_mono (T : SymbolTable) {fuel fuel2 : Nat} (hle : fuel ≤ fuel2)
    {value : String} {r : List Output × Eval} (h : evaluateValue T fuel value = some r) :
    evaluateValue T fuel2 value = some r := by
  induction hle with
  | refl => exact h
  | step _ ih => exact evaluateValue_succ T _ _ _ ih

/-- The evaluation of a value has one outcome, whatever the recursion bound. -/
theorem Evaluates.unique {T : SymbolTable} {value : String} {out out2 : List Output}
    {res res2 : Eval} (h : Evaluates T value out res) (h2 : Evaluates T value out2 res2) :
    out = out2 ∧ res = res2 := by
  obtain ⟨n, hn⟩ := h
  obtain ⟨m, hm⟩ := h2
  have a := evaluateValue_mono T (Nat.le_max_left n m) hn
  have b := evaluateValue_mono T (Nat.le_max_right n m) hm
  rw [a] at b
  simpa using b

theorem wrapLong_of_inLongRange {x : Int} (h : inLongRange x) : wrapLong x = x := by
  unfold inLongRange LONG_MIN LONG_MAX at h
  unfold wrapLong
  omega

theorem longFold_eq_exactFold :
    ∀ (l : List (Operand × Int)) (acc : Int), staysInRange acc l = true →
      longFold acc l = exactFold acc l := by
  intro l
  induction l with
  | nil => intro acc _; rfl
  | cons step rest ih =>
    intro acc h
    obtain ⟨operand, val⟩ := step
    simp only [staysInRange, Bool.and_eq_true, decide_eq_true_eq] at h
    have hstep : applyOperand operand acc val = applyExact operand acc val := by
      have hr := h.1
      cases operand <;> simp only [applyExact] at hr ⊢ <;> simp only [applyOperand]
        <;> exact wrapLong_of_inLongRange hr
    simp only [longFold, exactFold, List.foldl_cons, hstep]
    exact ih _ h.2

/-- A loop that ends with a value made every recursive call succeed, and its value is
the fold over `long` of the values of the calls. -/
theorem evaluateOperations_ok {ev : String → Option (List Output × Eval)}
    (hq : ∀ s o x, ev s = some (o, .ok x) → o = []) :
    ∀ (ops : Operations) (acc : Int) (out : List Output) (v : Int),
      evaluateOperations ev ops acc = some (out, .ok v) →
      out = [] ∧ ∃ vals : List Int,
        List.Forall₂ (fun (e : Operation) val => ev e.2 = some ([], .ok val)) ops vals
          ∧ v = longFold acc (steps ops vals) := by
  intro ops
  induction ops with
  | nil =>
    intro acc out v h
    simp only [evaluateOperations, Option.some.injEq, Prod.mk.injEq, Eval.ok.injEq] at h
    exact ⟨h.1.symm, [], List.Forall₂.nil, by simp [steps, longFold, h.2]⟩
  | cons e rest ih =>
    intro acc out v h
    obtain ⟨operand, operandvalue⟩ := e
    simp only [evaluateOperations] at h
    cases hev : ev operandvalue with
    | none => simp [hev] at h
    | some p =>
      obtain ⟨o, res⟩ := p
      rw [hev] at h
      cases res with
      | ok val =>
        simp only at h
        have ho : o = [] := hq _ _ _ hev
        cases hrest : evaluateOperations ev rest (applyOperand operand acc val) with
        | none => simp [hrest] at h
        | some q =>
          obtain ⟨o2, r2⟩ := q
          rw [hrest] at h
          simp only [Option.some.injEq, Prod.mk.injEq] at h
          obtain ⟨h1, h2⟩ := h
          subst h2
          obtain ⟨ho2, vals, hall, hv⟩ := ih _ _ _ hrest
          refine ⟨by rw [← h1, ho, ho2]; rfl, val :: vals, ?_, ?_⟩
          · exact List.Forall₂.cons (by rw [hev, ho]) hall
          · simpa [steps, longFold] using hv
      | fail => simp at h
      | thrown e => simp at h

/-- A call that returns true writes nothing. -/
theorem evaluateValue_ok_out (T : SymbolTable) :
    ∀ (fuel : Nat) (value : String) (out : List Output) (v : Int),
      evaluateValue T fuel value = some (out, .ok v) → out = [] := by
  intro fuel
  induction fuel with
  | zero => intro value out v h; simp [evaluateValue] at h
  | succ n ih =>
    intro value out v h
    rw [evaluateValue] at h
    split at h
    · split at h
      · simp only [Option.some.injEq, Prod.mk.injEq] at h; exact h.1.symm
      · simp at h
    · split at h
      · simp at h
      · exact (evaluateOperations_ok (ih) _ _ _ _ h).1

/-- The loop stops at the first recursive call that returns false. -/
theorem evaluateOperations_fail {ev : String → Option (List Output × Eval)} :
    ∀ (pre : Operations) (vals : List Int) (e : Operation) (post : Operations)
      (acc : Int) (out : List Output),
      List.Forall₂ (fun (e : Operation) val => ev e.2 = some ([], .ok val)) pre vals →
      ev e.2 = some (out, .fail) →
      evaluateOperations ev (pre ++ e :: post) acc = some (out, .fail) := by
  intro pre
  induction pre with
  | nil =>
    intro vals e post acc out _ he
    obtain ⟨operand, operandvalue⟩ := e
    simp only [List.nil_append, evaluateOperations]
    simp only at he
    rw [he]
  | cons p pre ih =>
    intro vals e post acc out hall he
    cases hall with
    | @cons _ val _ vals2 hp hrest =>
      obtain ⟨operand, operandvalue⟩ := p
      simp only at hp
      have hnext := ih vals2 e post (applyOperand operand acc val) out hrest he
      have happ : (operand, operandvalue) :: pre ++ e :: post
          = (operand, operandvalue) :: (pre ++ e :: post) := rfl
      rw [happ, evaluateOperations, hp]
      simp only [hnext, List.nil_append]

/-- Calls that all come to an end do so within one common recursion bound. -/
theorem forall₂_common_fuel (T : SymbolTable) :
    ∀ (ops : Operations) (vals : List Int),
      List.Forall₂ (fun (e : Operation) val => Evaluates T e.2 [] (.ok val)) ops vals →
      ∃ fuel, List.Forall₂
        (fun (e : Operation) val => evaluateValue T fuel e.2 = some ([], .ok val)) ops vals := by
  intro ops vals h
  induction h with
  | nil => exact ⟨0, List.Forall₂.nil⟩
  | @cons e val ops2 vals2 he _ ih =>
    obtain ⟨n, hn⟩ := he
    obtain ⟨m, hm⟩ := ih
    refine ⟨max n m, List.Forall₂.cons (evaluateValue_mono T (Nat.le_max_left n m) hn) ?_⟩
    exact hm.imp (fun _ _ h => evaluateValue_mono T (Nat.le_max_right n m) h)

/-! ## The evaluation of a register -/

/-- C1: for a register `r` (a token that is not a number) with stored operations `ops`,
a call `evaluateValue(r)` that returns true made every recursive call on the value
tokens of `ops` return true, and its value is the left-to-right fold from 0 over `ops`
with those values: the fold over `long`, which is the fold over the integers when no
intermediate value leaves the range of `long`. And when the calls for the entries
`pre` return true and the call for the next entry `e` returns false, `evaluateValue(r)`
returns false with the output of that call alone, whatever entries `post` follow. -/
theorem evaluateValue_fold (T : SymbolTable) (r : String) (ops : Operations)
    (hr : Token.isNumber r = false) (hT : T r = some ops) :
    (∀ out v, Evaluates T r out (.ok v) →
        out = [] ∧ ∃ vals : List Int,
          List.Forall₂ (fun (e : Operation) val => Evaluates T e.2 [] (.ok val)) ops vals
          ∧ v = longFold 0 (steps ops vals)
          ∧ (staysInRange 0 (steps ops vals) = true → v = exactFold 0 (steps ops vals)))
    ∧ (∀ pre vals e post out, ops = pre ++ e :: post →
        List.Forall₂ (fun (e : Operation) val => Evaluates T e.2 [] (.ok val)) pre vals →
        Evaluates T e.2 out .fail →
        Evaluates T r out .fail) := by
  constructor
  · rintro out v ⟨fuel, h⟩
    cases fuel with
    | zero => simp [evaluateValue] at h
    | succ n =>
      simp only [evaluateValue, hr, hT] at h
      obtain ⟨ho, vals, hall, hv⟩ :=
        evaluateOperations_ok (evaluateValue_ok_out T n) ops 0 out v (by simpa using h)
      refine ⟨ho, vals, hall.imp (fun _ _ hx => ⟨n, hx⟩), hv, fun hrange => ?_⟩
      rw [hv, longFold_eq_exactFold _ _ hrange]
  · rintro pre vals e post out hops hall ⟨m, hm⟩
    obtain ⟨n, hn⟩ := forall₂_common_fuel T pre vals hall
    refine ⟨max n m + 1, ?_⟩
    simp only [evaluateValue, hr, hT, hops]
    have hpre := hn.imp (fun _ _ h => evaluateValue_mono T (Nat.le_max_left n m) h)
    simpa using evaluateOperations_fail pre vals e post 0 out hpre
      (evaluateValue_mono T (Nat.le_max_right n m) hm)

/-- C1 on `a add 5`, `a multiply 2`, `a subtract 3`: the value is ((0+5)*2)-3 = 7. -/
theorem evaluateValue_fold_witness :
    Token.isNumber "a" = false
    ∧ chainTable "a" = some [(ADD, "5"), (MULTIPLY, "2"), (SUBTRACT, "3")]
    ∧ evaluateValue chainTable 2 "a" = some ([], .ok 7)
    ∧ exactFold 0 (steps [(ADD, "5"), (MULTIPLY, "2"), (SUBTRACT, "3")] [5, 2, 3]) = 7
    ∧ ((∀ out v, Evaluates chainTable "a" out (.ok v) →
        out = [] ∧ ∃ vals : List Int,
          List.Forall₂ (fun (e : Operation) val => Evaluates chainTable e.2 [] (.ok val))
            [(ADD, "5"), (MULTIPLY, "2"), (SUBTRACT, "3")] vals
          ∧ v = longFold 0 (steps [(ADD, "5"), (MULTIPLY, "2"), (SUBTRACT, "3")] vals)
          ∧ (staysInRange 0 (steps [(ADD, "5"), (MULTIPLY, "2"), (SUBTRACT, "3")] vals) = true
            → v = exactFold 0 (steps [(ADD, "5"), (MULTIPLY, "2"), (SUBTRACT, "3")] vals)))
      ∧ (∀ pre vals e post out,
        [(ADD, "5"), (MULTIPLY, "2"), (SUBTRACT, "3")] = pre ++ e :: post →
        List.Forall₂ (fun (e : Operation) val => Evaluates chainTable e.2 [] (.ok val))
          pre vals →
        Evaluates chainTable e.2 out .fail →
        Evaluates chainTable "a" out .fail)) :=
  ⟨by decide, by decide, by decide, by decide,
    evaluateValue_fold chainTable "a" _ (by decide) (by decide)⟩

/-! ## Recording arithmetic instructions -/

theorem execute_arithmetic_cons (fuel : Nat) (T : SymbolTable) (i : Instruction)
    (rest : Instructions) (hi : isArithmetic i = true) :
    execute fuel T (i :: rest)
      = execute fuel (addArithmeticOperation T i.1 i.2.1 i.2.2) rest := by
  obtain ⟨op, reg, value⟩ := i
  cases op <;> simp [isArithmetic] at hi <;> simp [execute]

theorem execute_recordAll (fuel : Nat) :
    ∀ (P : Instructions) (T : SymbolTable) (rest : Instructions),
      (∀ i ∈ P, isArithmetic i = true) →
      execute fuel T (P ++ rest) = execute fuel (recordAll T P) rest := by
  intro P
  induction P with
  | nil => intro T rest _; rfl
  | cons i P ih =>
    intro T rest h
    rw [List.cons_append, execute_arithmetic_cons fuel T i _ (h i (List.mem_cons_self _ _))]
    exact ih _ rest (fun j hj => h j (List.mem_cons_of_mem _ hj))

/-- The entry of a register after recording a sequence: the old entry followed by the
operations made against the register, and the old entry itself when there are none. -/
theorem recordAll_apply :
    ∀ (P : Instructions) (T : SymbolTable) (r : String),
      recordAll T P r =
        if against r P = [] then T r
        else some ((T r).getD [] ++ (against r P).map (fun i => (i.1, i.2.2))) := by
  intro P
  induction P with
  | nil => intro T r; simp [recordAll, against]
  | cons i P ih =>
    intro T r
    have hstep : recordAll T (i :: P)
        = recordAll (addArithmeticOperation T i.1 i.2.1 i.2.2) P := rfl
    rw [hstep, ih]
    by_cases hr : i.2.1 = r
    · have hag : against r (i :: P) = i :: against r P := by simp [against, hr]
      have hnew : addArithmeticOperation T i.1 i.2.1 i.2.2 r
          = some ((T r).getD [] ++ [(i.1, i.2.2)]) := by
        simp [addArithmeticOperation, hr]
      rw [hag, hnew]
      by_cases hnil : against r P = []
      · simp [hnil]
      · simp [hnil]
    · have hag : against r (i :: P) = against r P := by simp [against, hr]
      have hne : r ≠ i.2.1 := fun h => hr h.symm
      have hold : addArithmeticOperation T i.1 i.2.1 i.2.2 r = T r := by
        simp [addArithmeticOperation, hne]
      rw [hag, hold]

/-- C6: an arithmetic instruction `(op, r, v)` writes nothing and only changes the
table: the rest of the queue runs on a table whose entry for `r` is the old entry (the
empty list when `r` was absent) followed by `(op, v)`, and whose entry for every other
register `s` is the old one, so that a register used as the value `v` gets no entry. -/
theorem execute_arithmetic (fuel : Nat) (T : SymbolTable) (op : Operand) (r v : String)
    (hop : op = ADD ∨ op = SUBTRACT ∨ op = MULTIPLY) :
    ∃ T2 : SymbolTable,
      execute fuel T [(op, r, v)] = some ⟨.returned true, T2, [], []⟩
      ∧ (∀ rest, execute fuel T ((op, r, v) :: rest) = execute fuel T2 rest)
      ∧ T2 r = some ((T r).getD [] ++ [(op, v)])
      ∧ (∀ s, s ≠ r → T2 s = T s)
      ∧ (v ≠ r → T v = none → T2 v = none) := by
  have harith : isArithmetic (op, r, v) = true := by
    rcases hop with h | h | h <;> subst h <;> rfl
  refine ⟨addArithmeticOperation T op r v, ?_, ?_, ?_, ?_, ?_⟩
  · rw [execute_arithmetic_cons fuel T _ _ harith]; rfl
  · intro rest; exact execute_arithmetic_cons fuel T _ rest harith
  · simp [addArithmeticOperation]
  · intro s hs; simp [addArithmeticOperation, hs]
  · intro hv hnone; simp [addArithmeticOperation, hv, hnone]

/-- C6 on `a add b` in the empty table: `a` gets the entry, `b` gets none. -/
theorem execute_arithmetic_witness :
    (ADD = ADD ∨ ADD = SUBTRACT ∨ ADD = MULTIPLY)
    ∧ ∃ T2 : SymbolTable,
      execute 0 emptyTable [(ADD, "a", "b")] = some ⟨.returned true, T2, [], []⟩
      ∧ (∀ rest, execute 0 emptyTable ((ADD, "a", "b") :: rest) = execute 0 T2 rest)
      ∧ T2 "a" = some ((emptyTable "a").getD [] ++ [(ADD, "b")])
      ∧ (∀ s, s ≠ "a" → T2 s = emptyTable s)
      ∧ ("b" ≠ "a" → emptyTable "b" = none → T2 "b" = none) :=
  ⟨Or.inl rfl, execute_arithmetic 0 emptyTable ADD "a" "b" (Or.inl rfl)⟩

/-- C2: two sequences of arithmetic instructions that agree, register by register, on
the instructions made against the register, leave the same symbol table, so that a
print of any register after the one has the outcome, and the output, of the same print
after the other. -/
theorem print_order_independent (fuel : Nat) (P P2 : Instructions)
    (hP : ∀ i ∈ P, isArithmetic i = true) (hP2 : ∀ i ∈ P2, isArithmetic i = true)
    (hsame : ∀ r, against r P = against r P2) :
    recordAll emptyTable P = recordAll emptyTable P2
    ∧ ∀ r val,
      execute fuel emptyTable (P ++ [(PRINT, r, val)])
        = execute fuel emptyTable (P2 ++ [(PRINT, r, val)])
      ∧ outputOf (execute fuel emptyTable (P ++ [(PRINT, r, val)]))
        = outputOf (execute fuel emptyTable (P2 ++ [(PRINT, r, val)])) := by
  have htable : recordAll emptyTable P = recordAll emptyTable P2 := by
    funext r
    rw [recordAll_apply, recordAll_apply, hsame r]
  refine ⟨htable, fun r val => ?_⟩
  have hrun : execute fuel emptyTable (P ++ [(PRINT, r, val)])
      = execute fuel emptyTable (P2 ++ [(PRINT, r, val)]) := by
    rw [execute_recordAll fuel P _ _ hP, execute_recordAll fuel P2 _ _ hP2, htable]
  exact ⟨hrun, by rw [hrun]⟩

/-- C2 on `a add b`, `b add 1`, `print a` and `b add 1`, `a add b`, `print a`: both
print 1. -/
theorem print_order_independent_witness :
    (∀ i ∈ [((ADD, "a", "b") : Instruction), (ADD, "b", "1")], isArithmetic i = true)
    ∧ (∀ i ∈ [((ADD, "b", "1") : Instruction), (ADD, "a", "b")], isArithmetic i = true)
    ∧ (∀ r, against r [(ADD, "a", "b"), (ADD, "b", "1")]
        = against r [(ADD, "b", "1"), (ADD, "a", "b")])
    ∧ outputOf (execute 3 emptyTable ([(ADD, "a", "b"), (ADD, "b", "1")] ++ [(PRINT, "a", "")]))
        = some [.printed 1]
    ∧ outputOf (execute 3 emptyTable ([(ADD, "a", "b"), (ADD, "b", "1")] ++ [(PRINT, "a", "")]))
        = outputOf
            (execute 3 emptyTable ([(ADD, "b", "1"), (ADD, "a", "b")] ++ [(PRINT, "a", "")])) :=
  have h1 : ∀ i ∈ [((ADD, "a", "b") : Instruction), (ADD, "b", "1")],
      isArithmetic i = true := by decide
  have h2 : ∀ i ∈ [((ADD, "b", "1") : Instruction), (ADD, "a", "b")],
      isArithmetic i = true := by decide
  have h3 : ∀ r, against r [(ADD, "a", "b"), (ADD, "b", "1")]
      = against r [(ADD, "b", "1"), (ADD, "a", "b")] := by
    intro r
    by_cases ha : "a" = r <;> by_cases hb : "b" = r <;> simp [against, ha, hb]
    subst ha
    exact absurd hb (by decide)
  ⟨h1, h2, h3, by decide,
    ((print_order_independent 3 _ _ h1 h2 h3).2 "a" "").2⟩

/-! ## Quit -/

theorem execute_not_quit_cons (fuel : Nat) (T : SymbolTable) (i : Instruction)
    (Q : Instructions) (hi : isQuit i = false) (run : Run)
    (hrun : execute fuel T (beforeQuit (i :: Q)) = some run)
    (hsig : ∀ e, run.signal ≠ .threw e) :
    (∃ (T2 : SymbolTable) (o : List Output) (run2 : Run),
      execute fuel T2 (beforeQuit Q) = some run2 ∧ run = run2.after o
        ∧ ∀ Q2, execute fuel T (i :: Q2) = (execute fuel T2 Q2).map (Run.after o)) := by
  have hbq : beforeQuit (i :: Q) = i :: beforeQuit Q := by
    simp [beforeQuit, List.takeWhile, hi]
  rw [hbq] at hrun
  obtain ⟨op, reg, value⟩ := i
  cases op with
  | QUIT => simp [isQuit] at hi
  | PRINT =>
    simp only [execute] at hrun
    cases hp : printRegister T fuel reg with
    | none => simp [hp] at hrun
    | some pr =>
      obtain ⟨o, exn⟩ := pr
      rw [hp] at hrun
      cases exn with
      | some e =>
        simp only [Option.some.injEq] at hrun
        exact absurd (by rw [← hrun]) (hsig e)
      | none =>
        simp only at hrun
        cases hrest : execute fuel T (beforeQuit Q) with
        | none => simp [hrest] at hrun
        | some run2 =>
          rw [hrest] at hrun
          simp only [Option.map_some', Option.some.injEq] at hrun
          exact ⟨T, o, run2, hrest, hrun.symm, fun Q2 => by simp [execute, hp]⟩
  | ADD =>
    refine ⟨addArithmeticOperation T ADD reg value, [], run, ?_, ?_, ?_⟩
    · simpa [execute] using hrun
    · simp [Run.after]
    · intro Q2
      cases h : execute fuel (addArithmeticOperation T ADD reg value) Q2 <;>
        simp [execute, h, Run.after]
  | SUBTRACT =>
    refine ⟨addArithmeticOperation T SUBTRACT reg value, [], run, ?_, ?_, ?_⟩
    · simpa [execute] using hrun
    · simp [Run.after]
    · intro Q2
      cases h : execute fuel (addArithmeticOperation T SUBTRACT reg value) Q2 <;>
        simp [execute, h, Run.after]
  | MULTIPLY =>
    refine ⟨addArithmeticOperation T MULTIPLY reg value, [], run, ?_, ?_, ?_⟩
    · simpa [execute] using hrun
    · simp [Run.after]
    · intro Q2
      cases h : execute fuel (addArithmeticOperation T MULTIPLY reg value) Q2 <;>
        simp [execute, h, Run.after]

theorem execute_quit_general (fuel : Nat) :
    ∀ (Q : Instructions) (T : SymbolTable) (run : Run),
      execute fuel T (beforeQuit Q) = some run → (∀ e, run.signal ≠ .threw e) →
      run.signal = .returned true ∧ run.instructions = []
      ∧ execute fuel T Q
          = some ⟨.returned (!hasQuit Q), run.registers, afterQuit Q, run.out⟩ := by
  intro Q
  induction Q with
  | nil =>
    intro T run hrun _
    simp only [beforeQuit, List.takeWhile_nil, execute, Option.some.injEq] at hrun
    subst hrun
    simp [execute, hasQuit, afterQuit]
  | cons i Q ih =>
    intro T run hrun hsig
    by_cases hi : isQuit i = true
    · have hbq : beforeQuit (i :: Q) = [] := by simp [beforeQuit, List.takeWhile, hi]
      rw [hbq] at hrun
      simp only [execute, Option.some.injEq] at hrun
      subst hrun
      obtain ⟨op, reg, value⟩ := i
      cases op <;> simp [isQuit] at hi
      simp [execute, hasQuit, afterQuit, isQuit, List.dropWhile]
    · have hi2 : isQuit i = false := by simpa using hi
      obtain ⟨T2, o, run2, hrun2, hrel, hstep⟩ :=
        execute_not_quit_cons fuel T i Q hi2 run hrun hsig
      have hsig2 : ∀ e, run2.signal ≠ .threw e := by
        intro e; have := hsig e; rw [hrel] at this; simpa [Run.after] using this
      obtain ⟨h1, h2, h3⟩ := ih T2 run2 hrun2 hsig2
      subst hrel
      refine ⟨by simpa [Run.after] using h1, by simpa [Run.after] using h2, ?_⟩
      rw [hstep Q, h3]
      simp [Run.after, hasQuit, afterQuit, List.dropWhile, hi2]

theorem evaluateValue_cycleTable (fuel : Nat) : evaluateValue cycleTable fuel "a" = none := by
  induction fuel with
  | zero => rfl
  | succ n ih =>
    have hnum : Token.isNumber "a" = false := by decide
    have hT : cycleTable "a" = some [(ADD, "a")] := by decide
    simp [evaluateValue, hnum, hT, evaluateOperations, ih]

/-- C5, as the claim states it, fails on a register that depends on itself: after
`a add a` the queue `print a`, `quit` holds a quit, and yet `execute` gives no signal,
whatever the bound on the recursion of `evaluateValue`, because the print never ends. -/
theorem execute_quit_counterexample :
    hasQuit [(PRINT, "a", ""), (QUIT, "", "")] = true
    ∧ ¬ ∃ fuel run, execute fuel cycleTable [(PRINT, "a", ""), (QUIT, "", "")] = some run := by
  refine ⟨by decide, ?_⟩
  rintro ⟨fuel, run, h⟩
  simp [execute, printRegister, evaluateValue_cycleTable] at h

/-- C5, amended: when the instructions in front of the first quit of the queue `Q` (all
of `Q` when it has none) run to their end `run` without an exception, `execute(Q)`
returns, and returns false exactly when `Q` holds a quit; the table and the output are
those of the instructions in front of the first quit, which were all taken off the
queue, the quit is taken off too, and the instructions behind it are left in the queue. -/
theorem execute_quit (fuel : Nat) (T : SymbolTable) (Q : Instructions) (run : Run)
    (hrun : execute fuel T (beforeQuit Q) = some run)
    (hsig : ∀ e, run.signal ≠ .threw e) :
    run.signal = .returned true ∧ run.instructions = []
    ∧ execute fuel T Q
        = some ⟨.returned (!hasQuit Q), run.registers, afterQuit Q, run.out⟩ :=
  execute_quit_general fuel Q T run hrun hsig

/-- C5 on `a add 5 quit print a`: `a add 5` is recorded, nothing is written, the print
stays in the queue and the signal is stop. -/
theorem execute_quit_witness :
    execute 0 emptyTable (beforeQuit [(ADD, "a", "5"), (QUIT, "", ""), (PRINT, "a", "")])
      = some quitRun
    ∧ (∀ e, quitRun.signal ≠ .threw e)
    ∧ quitRun.registers "a" = some [(ADD, "5")]
    ∧ (quitRun.signal = .returned true ∧ quitRun.instructions = []
      ∧ execute 0 emptyTable [(ADD, "a", "5"), (QUIT, "", ""), (PRINT, "a", "")]
        = some ⟨.returned (!hasQuit [(ADD, "a", "5"), (QUIT, "", ""), (PRINT, "a", "")]),
            quitRun.registers,
            afterQuit [(ADD, "a", "5"), (QUIT, "", ""), (PRINT, "a", "")], quitRun.out⟩)
    ∧ hasQuit [(ADD, "a", "5"), (QUIT, "", ""), (PRINT, "a", "")] = true
    ∧ afterQuit [(ADD, "a", "5"), (QUIT, "", ""), (PRINT, "a", "")] = [(PRINT, "a", "")]
    ∧ quitRun.out = [] :=
  ⟨rfl, (fun _ h => by cases h), by decide,
    execute_quit 0 emptyTable [(ADD, "a", "5"), (QUIT, "", ""), (PRINT, "a", "")] quitRun rfl
      (fun _ h => by cases h),
    by decide, by decide, rfl⟩

/-! ## Lookup errors -/

theorem evaluateOperations_walkAgrees (T : SymbolTable)
    {ev : String → Option (List Output × Eval)} {fu : String → Option String}
    (h : ∀ s o r, ev s = some (o, r) → walkAgrees T (fu s) o r) :
    ∀ (ops : Operations) (acc : Int) (out : List Output) (res : Eval),
      evaluateOperations ev ops acc = some (out, res) →
      walkAgrees T (ops.findSome? (fun e => fu e.2)) out res := by
  intro ops
  induction ops with
  | nil =>
    intro acc out res hev
    simp only [evaluateOperations, Option.some.injEq, Prod.mk.injEq] at hev
    obtain ⟨h1, h2⟩ := hev
    subst h1 h2
    exact ⟨rfl, rfl⟩
  | cons e rest ih =>
    intro acc out res hev
    obtain ⟨operand, operandvalue⟩ := e
    simp only [evaluateOperations] at hev
    cases hs : ev operandvalue with
    | none => simp [hs] at hev
    | some p =>
      obtain ⟨o, r⟩ := p
      have hw := h _ _ _ hs
      rw [hs] at hev
      cases r with
      | ok val =>
        simp only at hev
        obtain ⟨hnone, ho⟩ := hw
        cases hrest : evaluateOperations ev rest (applyOperand operand acc val) with
        | none => simp [hrest] at hev
        | some q =>
          obtain ⟨o2, r2⟩ := q
          rw [hrest] at hev
          simp only [Option.some.injEq, Prod.mk.injEq] at hev
          obtain ⟨h1, h2⟩ := hev
          subst h1 h2
          have := ih _ _ _ hrest
          simpa [List.findSome?, hnone, ho] using this
      | fail =>
        simp only [Option.some.injEq, Prod.mk.injEq] at hev
        obtain ⟨h1, h2⟩ := hev
        subst h1 h2
        obtain ⟨name, hname, hrest⟩ := hw
        exact ⟨name, by simp [List.findSome?, hname], hrest⟩
      | thrown e =>
        simp only [Option.some.injEq, Prod.mk.injEq] at hev
        rw [← hev.2]
        trivial

theorem evaluateValue_walkAgrees (T : SymbolTable) :
    ∀ (fuel : Nat) (value : String) (out : List Output) (res : Eval),
      evaluateValue T fuel value = some (out, res) →
      walkAgrees T (firstUndefined T fuel value) out res := by
  intro fuel
  induction fuel with
  | zero => intro value out res h; simp [evaluateValue] at h
  | succ n ih =>
    intro value out res h
    rw [evaluateValue] at h
    rw [firstUndefined]
    by_cases hnum : Token.isNumber value = true
    · simp only [hnum, if_true] at h ⊢
      split at h
      · simp only [Option.some.injEq, Prod.mk.injEq] at h
        obtain ⟨h1, h2⟩ := h
        subst h1 h2
        exact ⟨rfl, rfl⟩
      · simp only [Option.some.injEq, Prod.mk.injEq] at h
        rw [← h.2]
        trivial
    · have hnum2 : Token.isNumber value = false := by simpa using hnum
      simp only [hnum2] at h ⊢
      cases hT : T value with
      | none =>
        simp only [hT, Option.some.injEq, Prod.mk.injEq] at h
        obtain ⟨rfl, rfl⟩ := h
        exact ⟨value, rfl, rfl, hT, hnum2⟩
      | some ops =>
        simp only [hT] at h
        simpa using evaluateOperations_walkAgrees T (ih) ops 0 out res (by simpa using h)

/-- C4: when `evaluateValue(r)` returns false, it wrote exactly one line, the lookup
error for the first register without an entry on the depth-first, left-to-right walk
from `r` (which is `r` itself when `r` has no entry); `print r` then writes that line
and no value, does not stop the run, and the instructions queued behind it are run on
the same table. -/
theorem print_lookup_error (fuel : Nat) (T : SymbolTable) (r : String) (out : List Output)
    (hfail : evaluateValue T fuel r = some (out, .fail)) :
    ∃ name, firstUndefined T fuel r = some name
      ∧ T name = none ∧ Token.isNumber name = false
      ∧ (T r = none → name = r)
      ∧ out = [.lookupError name]
      ∧ (∀ v, Output.printed v ∉ out)
      ∧ ∀ val rest,
        execute fuel T ((PRINT, r, val) :: rest)
          = (execute fuel T rest).map (Run.after [.lookupError name]) := by
  obtain ⟨name, hname, hout, hT, hnum⟩ := evaluateValue_walkAgrees T fuel r out .fail hfail
  refine ⟨name, hname, hT, hnum, ?_, hout, ?_, ?_⟩
  · intro hr
    cases fuel with
    | zero => simp [evaluateValue] at hfail
    | succ n =>
      rw [firstUndefined] at hname
      by_cases hn : Token.isNumber r = true
      · simp [hn] at hname
      · have hn2 : Token.isNumber r = false := by simpa using hn
        simp only [hn2, hr] at hname
        simpa using hname.symm
  · intro v; simp [hout]
  · intro val rest
    simp [execute, printRegister, hfail, hout]

/-- C4 on `print x` in the empty table: no value is written, only the lookup error
for `x`. -/
theorem print_lookup_error_witness :
    evaluateValue emptyTable 1 "x" = some ([.lookupError "x"], .fail)
    ∧ outputOf (execute 1 emptyTable [(PRINT, "x", "")]) = some [.lookupError "x"]
    ∧ ∃ name, firstUndefined emptyTable 1 "x" = some name
      ∧ emptyTable name = none ∧ Token.isNumber name = false
      ∧ (emptyTable "x" = none → name = "x")
      ∧ [Output.lookupError "x"] = [.lookupError name]
      ∧ (∀ v, Output.printed v ∉ [Output.lookupError "x"])
      ∧ ∀ val rest,
        execute 1 emptyTable ((PRINT, "x", val) :: rest)
          = (execute 1 emptyTable rest).map (Run.after [.lookupError name]) :=
  ⟨by decide, by decide,
    print_lookup_error 1 emptyTable "x" [.lookupError "x"] (by decide)⟩

/-! ## Success of an evaluation -/

theorem evaluateOperations_ok_mem {ev : String → Option (List Output × Eval)} :
    ∀ (ops : Operations) (acc : Int) (out : List Output) (v : Int),
      evaluateOperations ev ops acc = some (out, .ok v) →
      ∀ e ∈ ops, ∃ o val, ev e.2 = some (o, .ok val) := by
  intro ops
  induction ops with
  | nil => intro acc out v _ e he; cases he
  | cons p rest ih =>
    intro acc out v h e he
    obtain ⟨operand, operandvalue⟩ := p
    simp only [evaluateOperations] at h
    cases hev : ev operandvalue with
    | none => simp [hev] at h
    | some q =>
      obtain ⟨o, res⟩ := q
      rw [hev] at h
      cases res with
      | ok val =>
        simp only at h
        cases hrest : evaluateOperations ev rest (applyOperand operand acc val) with
        | none => simp [hrest] at h
        | some q2 =>
          obtain ⟨o2, r2⟩ := q2
          rw [hrest] at h
          simp only [Option.some.injEq, Prod.mk.injEq] at h
          obtain ⟨_, h2⟩ := h
          subst h2
          rcases List.mem_cons.mp he with rfl | hmem
          · exact ⟨o, val, hev⟩
          · exact ih _ _ _ hrest e hmem
      | fail => simp at h
      | thrown x => simp at h

theorem evaluateOperations_all_ok {ev : String → Option (List Output × Eval)} :
    ∀ (ops : Operations), (∀ e ∈ ops, ∃ val, ev e.2 = some ([], .ok val)) →
      ∀ acc, ∃ v, evaluateOperations ev ops acc = some ([], .ok v) := by
  intro ops
  induction ops with
  | nil => intro _ acc; exact ⟨acc, rfl⟩
  | cons p rest ih =>
    intro h acc
    obtain ⟨operand, operandvalue⟩ := p
    obtain ⟨val, hval⟩ := h (operand, operandvalue) (List.mem_cons_self _ _)
    obtain ⟨v, hv⟩ := ih (fun e he => h e (List.mem_cons_of_mem _ he))
      (applyOperand operand acc val)
    refine ⟨v, ?_⟩
    simp only at hval
    simp [evaluateOperations, hval, hv]

theorem common_fuel_of_mem (T : SymbolTable) :
    ∀ (ops : Operations), (∀ e ∈ ops, ∃ val, Evaluates T e.2 [] (.ok val)) →
      ∃ fuel, ∀ e ∈ ops, ∃ val, evaluateValue T fuel e.2 = some ([], .ok val) := by
  intro ops
  induction ops with
  | nil => intro _; exact ⟨0, fun e he => by cases he⟩
  | cons p rest ih =>
    intro h
    obtain ⟨val, n, hn⟩ := h p (List.mem_cons_self _ _)
    obtain ⟨m, hm⟩ := ih (fun e he => h e (List.mem_cons_of_mem _ he))
    refine ⟨max n m, fun e he => ?_⟩
    rcases List.mem_cons.mp he with rfl | hmem
    · exact ⟨val, evaluateValue_mono T (Nat.le_max_left n m) hn⟩
    · obtain ⟨val2, h2⟩ := hm e hmem
      exact ⟨val2, evaluateValue_mono T (Nat.le_max_right n m) h2⟩

theorem keys_of_evaluateValue_ok (T : SymbolTable) :
    ∀ (fuel : Nat) (r : String) (out : List Output) (v : Int),
      Token.isNumber r = false → evaluateValue T fuel r = some (out, .ok v) →
      ∀ s, Reaches T r s → (T s).isSome = true := by
  intro fuel
  induction fuel with
  | zero => intro r out v _ h; simp [evaluateValue] at h
  | succ n ih =>
    intro r out v hr h s hs
    simp only [evaluateValue, hr] at h
    cases hT : T r with
    | none => simp [hT] at h
    | some ops =>
      simp only [hT] at h
      rcases Relation.ReflTransGen.cases_head hs with rfl | ⟨c, hrc, hcs⟩
      · simp [hT]
      · obtain ⟨_, hc, ops2, hops2, op, hmem⟩ := hrc
        rw [hT] at hops2
        simp only [Option.some.injEq] at hops2
        subst hops2
        obtain ⟨o, val, hval⟩ :=
          evaluateOperations_ok_mem ops 0 out v (by simpa using h) (op, c) hmem
        exact ih c o val hc hval s hcs

theorem evaluateValue_ok_of_keys (T : SymbolTable) (hacyc : Acyclic T)
    (hlit : literalsInRange T) :
    ∀ r, Token.isNumber r = false → (∀ s, Reaches T r s → (T s).isSome = true) →
      ∃ v, Evaluates T r [] (.ok v) := by
  intro r
  induction r using hacyc.induction with
  | _ r ih =>
    intro hr hkeys
    have hsome := hkeys r Relation.ReflTransGen.refl
    cases hT : T r with
    | none => simp [hT] at hsome
    | some ops =>
      have hall : ∀ e ∈ ops, ∃ val, Evaluates T e.2 [] (.ok val) := by
        intro e he
        obtain ⟨op, s⟩ := e
        by_cases hs : Token.isNumber s = true
        · obtain ⟨val, hval⟩ := hlit r ops op s hT he hs
          exact ⟨val, 1, by simp [evaluateValue, hs, hval]⟩
        · have hs2 : Token.isNumber s = false := by simpa using hs
          have href : references T r s := ⟨hr, hs2, ops, hT, op, he⟩
          exact ih s href hs2
            (fun t ht => hkeys t (Relation.ReflTransGen.head href ht))
      obtain ⟨n, hn⟩ := common_fuel_of_mem T ops hall
      obtain ⟨v, hv⟩ := evaluateOperations_all_ok ops hn 0
      exact ⟨v, n + 1, by simp [evaluateValue, hr, hT, hv]⟩

/-- C3: in a table whose register dependencies are acyclic and whose numeric literals
`std::stol` converts, `evaluateValue(r)` on a register name `r` (a token that is not a
number) returns true if and only if `r` and every register referenced from it, directly
or through other registers, is a key of the table. -/
theorem evaluateValue_succeeds_iff (T : SymbolTable) (hacyc : Acyclic T)
    (hlit : literalsInRange T) (r : String) (hr : Token.isNumber r = false) :
    (∃ v, Evaluates T r [] (.ok v)) ↔ ∀ s, Reaches T r s → (T s).isSome = true := by
  constructor
  · rintro ⟨v, fuel, h⟩
    exact keys_of_evaluateValue_ok T fuel r [] v hr h
  · exact evaluateValue_ok_of_keys T hacyc hlit r hr

theorem forwardTable_acyclic : Acyclic forwardTable := by
  have hnone : ∀ x, x ≠ "a" → x ≠ "b" → Acc (fun s r => references forwardTable r s) x := by
    intro x ha hb
    refine Acc.intro x (fun y hy => ?_)
    obtain ⟨_, _, ops, hops, _⟩ := hy
    simp [forwardTable, ha, hb] at hops
  have hb : Acc (fun s r => references forwardTable r s) "b" := by
    refine Acc.intro _ (fun y hy => ?_)
    obtain ⟨_, hy2, ops, hops, op, hmem⟩ := hy
    have hops2 : ops = [(ADD, "1")] := by
      have : forwardTable "b" = some [(ADD, "1")] := by decide
      rw [this] at hops
      exact (Option.some.inj hops).symm
    subst hops2
    simp only [List.mem_singleton, Prod.mk.injEq] at hmem
    rw [hmem.2] at hy2
    exact absurd hy2 (by decide)
  have ha : Acc (fun s r => references forwardTable r s) "a" := by
    refine Acc.intro _ (fun y hy => ?_)
    obtain ⟨_, _, ops, hops, op, hmem⟩ := hy
    have hops2 : ops = [(ADD, "b")] := by
      have : forwardTable "a" = some [(ADD, "b")] := by decide
      rw [this] at hops
      exact (Option.some.inj hops).symm
    subst hops2
    simp only [List.mem_singleton, Prod.mk.injEq] at hmem
    rw [hmem.2]
    exact hb
  refine ⟨fun x => ?_⟩
  by_cases h1 : x = "a"
  · rw [h1]; exact ha
  · by_cases h2 : x = "b"
    · rw [h2]; exact hb
    · exact hnone x h1 h2

theorem forwardTable_literals : literalsInRange forwardTable := by
  intro r ops op s hops hmem hs
  by_cases h1 : r = "a"
  · subst h1
    have : forwardTable "a" = some [(ADD, "b")] := by decide
    rw [this] at hops
    have hops2 := (Option.some.inj hops).symm
    subst hops2
    simp only [List.mem_singleton, Prod.mk.injEq] at hmem
    rw [hmem.2] at hs
    exact absurd hs (by decide)
  · by_cases h2 : r = "b"
    · subst h2
      have : forwardTable "b" = some [(ADD, "1")] := by decide
      rw [this] at hops
      have hops2 := (Option.some.inj hops).symm
      subst hops2
      simp only [List.mem_singleton, Prod.mk.injEq] at hmem
      rw [hmem.2]
      exact ⟨1, by decide⟩
    · simp [forwardTable, h1, h2] at hops

/-- C3 on the table of `a add b`, `b add 1` and the register `a`, which evaluates to 1. -/
theorem evaluateValue_succeeds_iff_witness :
    Acyclic forwardTable ∧ literalsInRange forwardTable ∧ Token.isNumber "a" = false
    ∧ evaluateValue forwardTable 3 "a" = some ([], .ok 1)
    ∧ ((∃ v, Evaluates forwardTable "a" [] (.ok v))
        ↔ ∀ s, Reaches forwardTable "a" s → (forwardTable s).isSome = true) :=
  ⟨forwardTable_acyclic, forwardTable_literals, by decide, by decide,
    evaluateValue_succeeds_iff forwardTable forwardTable_acyclic forwardTable_literals "a"
      (by decide)⟩

/-! ## The parser -/

theorem readArithmeticOperand_nil : readArithmeticOperand [] = (none, []) := rfl

theorem readArithmeticOperand_cons (t : String) (rest : IStream) :
    readArithmeticOperand (t :: rest) = (arithmeticKeyword (toLower t), rest) := by
  simp only [readArithmeticOperand, readToken, arithmeticKeyword, Token.isAddOperand,
    Token.isSubtractOperand, Token.isMultiplyOperand, decide_eq_true_eq]
  split
  · rfl
  · split
    · rfl
    · split <;> rfl

theorem readValue_nil : readValue [] = (none, []) := rfl

theorem readValue_cons (t : String) (rest : IStream) :
    readValue (t :: rest)
      = (if isValue (toLower t) = true then some (toLower t) else none, rest) := by
  simp only [readValue, readToken, isValue]
  split <;> rfl

theorem readRegister_nil : readRegister [] = (none, []) := rfl

theorem readRegister_cons (t : String) (rest : IStream) :
    readRegister (t :: rest)
      = (if Token.isRegister (toLower t) = true then some (toLower t) else none, rest) := by
  simp only [readRegister, readToken]
  split <;> rfl

theorem parsePrintInstruction_length (q : Instructions) (rest : IStream) :
    (parsePrintInstruction q rest).inputstream.length ≤ rest.length := by
  cases rest with
  | nil => simp [parsePrintInstruction, readRegister_nil]
  | cons t rest2 =>
    simp only [parsePrintInstruction, readRegister_cons]
    by_cases h : Token.isRegister (toLower t) = true <;> simp [h]

theorem parseArithmeticInstruction_stream (q : Instructions) (rest : IStream) (reg : String) :
    (parseArithmeticInstruction q rest reg).inputstream = rest.drop 2 := by
  cases rest with
  | nil => simp [parseArithmeticInstruction, readArithmeticOperand_nil, readValue_nil]
  | cons t rest2 =>
    cases rest2 with
    | nil => simp [parseArithmeticInstruction, readArithmeticOperand_cons, readValue_nil]
    | cons t2 rest3 =>
      simp [parseArithmeticInstruction, readArithmeticOperand_cons, readValue_cons]

theorem parseToken_length (q : Instructions) (input : String) (rest : IStream) :
    (parseToken q input rest).inputstream.length ≤ rest.length := by
  unfold parseToken
  split
  · exact Nat.le_refl _
  · split
    · exact parsePrintInstruction_length q rest
    · split
      · rw [parseArithmeticInstruction_stream]
        simp
      · exact Nat.le_refl _

theorem parseLoop_fuel :
    ∀ (n : Nat) (q : Instructions) (s : IStream), s.length ≤ n →
      parseLoop n q s = parseLoop s.length q s := by
  intro n
  induction n using Nat.strong_induction_on with
  | _ n ih =>
    intro q s hle
    cases s with
    | nil => cases n <;> rfl
    | cons t rest =>
      cases n with
      | zero => simp at hle
      | succ m =>
        have hm : rest.length ≤ m := by simpa using hle
        have hlen := parseToken_length q (toLower t) rest
        simp only [parseLoop, readToken, List.length_cons]
        rw [ih m (Nat.lt_succ_self m) _ _ (le_trans hlen hm),
          ih rest.length (by omega) _ _ hlen]

theorem parse_cons (q : Instructions) (t : String) (rest : IStream) :
    parse q (t :: rest)
      = emit (parseToken q (toLower t) rest).out
          (parse (parseToken q (toLower t) rest).instructions
            (parseToken q (toLower t) rest).inputstream) := by
  unfold parse
  simp only [List.length_cons, parseLoop, readToken, emit]
  rw [parseLoop_fuel rest.length _ _ (parseToken_length q (toLower t) rest)]

theorem parse_nil (q : Instructions) : parse q [] = (q, []) := rfl

theorem emit_nil (p : Instructions × List Output) : emit [] p = p := by
  simp [emit]

theorem not_quit_of_isPrintOperand {tok : String} (h : Token.isPrintOperand tok = true) :
    Token.isQuitOperand tok = false := by
  simp only [Token.isPrintOperand, decide_eq_true_eq] at h
  subst h
  decide

theorem not_keyword_of_isRegister {tok : String} (h : Token.isRegister tok = true) :
    Token.isQuitOperand tok = false ∧ Token.isPrintOperand tok = false := by
  simp only [Token.isRegister, Token.isKeyword, Bool.and_eq_true, Bool.not_eq_true',
    Bool.or_eq_false_iff] at h
  exact ⟨h.2.1.1.1.1, h.2.1.1.1.2⟩

/-- C10: on a leading quit token the parser appends the instruction `(QUIT, "", "")`,
writes nothing and takes no further token: the parse goes on with the tokens behind the
quit exactly as a parse of those tokens would. -/
theorem parse_quit (q : Instructions) (t : String) (rest : IStream)
    (ht : Token.isQuitOperand (toLower t) = true) :
    parseToken q (toLower t) rest = ⟨q ++ [(QUIT, "", "")], [], rest⟩
    ∧ parse q (t :: rest) = parse (q ++ [(QUIT, "", "")]) rest := by
  have hstep : parseToken q (toLower t) rest = ⟨q ++ [(QUIT, "", "")], [], rest⟩ := by
    simp [parseToken, ht, addInstruction]
  exact ⟨hstep, by rw [parse_cons, hstep, emit_nil]⟩

/-- C10 on `quit print a`: the print behind the quit is parsed as the next instruction. -/
theorem parse_quit_witness :
    Token.isQuitOperand (toLower "quit") = true
    ∧ parse [] ["quit", "print", "a"] = ([(QUIT, "", ""), (PRINT, "a", "")], [])
    ∧ (parseToken [] (toLower "quit") ["print", "a"]
        = ⟨[] ++ [(QUIT, "", "")], [], ["print", "a"]⟩
      ∧ parse [] ("quit" :: ["print", "a"]) = parse ([] ++ [(QUIT, "", "")]) ["print", "a"]) :=
  ⟨by decide, by decide, parse_quit [] "quit" ["print", "a"] (by decide)⟩

/-- C9: on a leading token that is neither quit, nor print, nor a register, the parser
appends nothing, writes the one line that the token is an invalid start of expression,
takes no further token, and goes on exactly as a parse of the tokens behind it. -/
theorem parse_invalid_start (q : Instructions) (t : String) (rest : IStream)
    (hquit : Token.isQuitOperand (toLower t) = false)
    (hprint : Token.isPrintOperand (toLower t) = false)
    (hreg : Token.isRegister (toLower t) = false) :
    parseToken q (toLower t) rest = ⟨q, [.invalidStart (toLower t)], rest⟩
    ∧ parse q (t :: rest) = emit [.invalidStart (toLower t)] (parse q rest) := by
  have hstep : parseToken q (toLower t) rest = ⟨q, [.invalidStart (toLower t)], rest⟩ := by
    simp [parseToken, hquit, hprint, hreg]
  exact ⟨hstep, by rw [parse_cons, hstep]⟩

/-- C9 on `5 add 3 print a`: three invalid starts, for 5, add and 3, and the one
instruction `(PRINT, a, "")`. -/
theorem parse_invalid_start_witness :
    Token.isQuitOperand (toLower "5") = false
    ∧ Token.isPrintOperand (toLower "5") = false
    ∧ Token.isRegister (toLower "5") = false
    ∧ parse [] ["5", "add", "3", "print", "a"]
        = ([(PRINT, "a", "")], [.invalidStart "5", .invalidStart "add", .invalidStart "3"])
    ∧ (parseToken [] (toLower "5") ["add", "3", "print", "a"]
        = ⟨[], [.invalidStart (toLower "5")], ["add", "3", "print", "a"]⟩
      ∧ parse [] ("5" :: ["add", "3", "print", "a"])
        = emit [.invalidStart (toLower "5")] (parse [] ["add", "3", "print", "a"])) :=
  ⟨by decide, by decide, by decide, by decide,
    parse_invalid_start [] "5" ["add", "3", "print", "a"] (by decide) (by decide) (by decide)⟩

/-- C8: behind a leading print token the parser reads one token `t`. When `t` is a
register it appends `(PRINT, t, "")`, writes nothing and goes on with the tokens behind
`t`; when `t` is no register (a keyword as well) it appends nothing, writes the one line
that print must be followed by a register, and goes on with the tokens behind `t`, so
that `t` is not read again; when there is no token it writes that line and ends. -/
theorem parse_print (q : Instructions) (p : String)
    (hp : Token.isPrintOperand (toLower p) = true) :
    (∀ t rest, Token.isRegister (toLower t) = true →
      parse q (p :: t :: rest) = parse (q ++ [(PRINT, toLower t, "")]) rest)
    ∧ (∀ t rest, Token.isRegister (toLower t) = false →
      parse q (p :: t :: rest) = emit [.printNeedsRegister] (parse q rest))
    ∧ parse q [p] = (q, [.printNeedsRegister]) := by
  have hq := not_quit_of_isPrintOperand hp
  refine ⟨fun t rest ht => ?_, fun t rest ht => ?_, ?_⟩
  · have hstep : parseToken q (toLower p) (t :: rest)
        = ⟨q ++ [(PRINT, toLower t, "")], [], rest⟩ := by
      simp [parseToken, hq, hp, parsePrintInstruction, readRegister_cons, ht, addInstruction]
    rw [parse_cons, hstep, emit_nil]
  · have hstep : parseToken q (toLower p) (t :: rest) = ⟨q, [.printNeedsRegister], rest⟩ := by
      simp [parseToken, hq, hp, parsePrintInstruction, readRegister_cons, ht]
    rw [parse_cons, hstep]
  · have hstep : parseToken q (toLower p) [] = ⟨q, [.printNeedsRegister], []⟩ := by
      simp [parseToken, hq, hp, parsePrintInstruction, readRegister_nil]
    rw [parse_cons, hstep, parse_nil]
    rfl

/-- C8 on `print quit print a`: the quit behind the first print is dropped, not parsed
as a quit. -/
theorem parse_print_witness :
    Token.isPrintOperand (toLower "print") = true
    ∧ parse [] ["print", "quit", "print", "a"] = ([(PRINT, "a", "")], [.printNeedsRegister])
    ∧ ((∀ t rest, Token.isRegister (toLower t) = true →
        parse [] ("print" :: t :: rest) = parse ([] ++ [(PRINT, toLower t, "")]) rest)
      ∧ (∀ t rest, Token.isRegister (toLower t) = false →
        parse [] ("print" :: t :: rest) = emit [.printNeedsRegister] (parse [] rest))
      ∧ parse [] ["print"] = ([], [.printNeedsRegister])) :=
  ⟨by decide, by decide, parse_print [] "print" (by decide)⟩

/-- C7: behind a leading register token `r` the parser reads two tokens `t1` and `t2`,
whatever `t1` is, and goes on with the tokens behind them. It appends
`(op, r, t2)` exactly when `t1` names the arithmetic operand `op` and `t2` is a number
or a register; it writes the missing operand line exactly when `t1` names no arithmetic
operand, and the missing value line exactly when `t2` is no value. A token that the
stream no longer has counts as a failed read. -/
theorem parse_register (q : Instructions) (r0 : String)
    (hr : Token.isRegister (toLower r0) = true) :
    (∀ t1 t2 rest,
      parse q (r0 :: t1 :: t2 :: rest)
        = emit
            ((if (arithmeticKeyword (toLower t1)).isSome = true then []
                else [.missingOperand (toLower r0)])
              ++ (if isValue (toLower t2) = true then [] else [.missingValue]))
            (parse
              (match arithmeticKeyword (toLower t1) with
                | some op =>
                  if isValue (toLower t2) = true then q ++ [(op, toLower r0, toLower t2)]
                  else q
                | none => q)
              rest))
    ∧ (∀ t1,
      parse q [r0, t1]
        = (q, (if (arithmeticKeyword (toLower t1)).isSome = true then []
                else [.missingOperand (toLower r0)]) ++ [.missingValue]))
    ∧ parse q [r0] = (q, [.missingOperand (toLower r0), .missingValue]) := by
  obtain ⟨hq, hp⟩ := not_keyword_of_isRegister hr
  refine ⟨fun t1 t2 rest => ?_, fun t1 => ?_, ?_⟩
  · rw [parse_cons]
    simp only [parseToken, hq, hp, hr, parseArithmeticInstruction, readArithmeticOperand_cons,
      readValue_cons, addInstruction]
    cases h1 : arithmeticKeyword (toLower t1) <;>
      by_cases h2 : isValue (toLower t2) = true <;> simp [h2, emit]
  · rw [parse_cons]
    simp only [parseToken, hq, hp, hr, parseArithmeticInstruction, readArithmeticOperand_cons,
      readValue_nil]
    cases h1 : arithmeticKeyword (toLower t1) <;> simp [emit, parse_nil]
  · rw [parse_cons]
    simp [parseToken, hq, hp, hr, parseArithmeticInstruction, readArithmeticOperand_nil,
      readValue_nil, emit, parse_nil]

/-- C7 on `a 5 b c add 1`: the tokens `5` and `b` are both taken with `a`, only the
operand line is written, and `c add 1` is parsed next. -/
theorem parse_register_witness :
    Token.isRegister (toLower "a") = true
    ∧ parse [] ["a", "5", "b", "c", "add", "1"] = ([(ADD, "c", "1")], [.missingOperand "a"])
    ∧ parse [] ["a", "add", "quit", "print", "a"]
        = ([(PRINT, "a", "")], [.missingValue])
    ∧ ((∀ t1 t2 rest,
        parse [] ("a" :: t1 :: t2 :: rest)
          = emit
              ((if (arithmeticKeyword (toLower t1)).isSome = true then []
                  else [.missingOperand (toLower "a")])
                ++ (if isValue (toLower t2) = true then [] else [.missingValue]))
              (parse
                (match arithmeticKeyword (toLower t1) with
                  | some op =>
                    if isValue (toLower t2) = true then [] ++ [(op, toLower "a", toLower t2)]
                    else []
                  | none => [])
                rest))
      ∧ (∀ t1,
        parse [] ["a", t1]
          = ([], (if (arithmeticKeyword (toLower t1)).isSome = true then []
                  else [.missingOperand (toLower "a")]) ++ [.missingValue]))
      ∧ parse [] ["a"] = ([], [.missingOperand (toLower "a"), .missingValue])) :=
  ⟨by decide, by decide, by decide, parse_register [] "a" (by decide)⟩

/-! ## Parse attempts -/

/-- One round of the loop of `parse` either appends one well-formed instruction and
writes nothing, or appends nothing and writes at least one line. -/
theorem parseToken_attempt (q : Instructions) (input : String) (rest : IStream) :
    (∃ i, (parseToken q input rest).instructions = q ++ [i]
        ∧ (parseToken q input rest).out = [] ∧ wellFormed i = true)
    ∨ ((parseToken q input rest).instructions = q ∧ (parseToken q input rest).out ≠ []) := by
  unfold parseToken
  split
  · exact Or.inl ⟨(QUIT, "", ""), rfl, rfl, by decide⟩
  · split
    · cases rest with
      | nil => exact Or.inr ⟨rfl, by simp [parsePrintInstruction, readRegister_nil]⟩
      | cons t rest2 =>
        by_cases ht : Token.isRegister (toLower t) = true
        · refine Or.inl ⟨(PRINT, toLower t, ""), ?_, ?_, ?_⟩
          · simp [parsePrintInstruction, readRegister_cons, ht, addInstruction]
          · simp [parsePrintInstruction, readRegister_cons, ht]
          · simp [wellFormed, ht]
        · refine Or.inr ⟨?_, ?_⟩
          · simp [parsePrintInstruction, readRegister_cons, ht]
          · simp [parsePrintInstruction, readRegister_cons, ht]
    · split
      · rename_i hreg
        cases rest with
        | nil =>
          exact Or.inr ⟨rfl, by
            simp [parseArithmeticInstruction, readArithmeticOperand_nil, readValue_nil]⟩
        | cons t1 rest2 =>
          cases rest2 with
          | nil =>
            refine Or.inr ⟨?_, ?_⟩
            · simp only [parseArithmeticInstruction, readArithmeticOperand_cons, readValue_nil]
              cases arithmeticKeyword (toLower t1) <;> rfl
            · simp [parseArithmeticInstruction, readArithmeticOperand_cons, readValue_nil]
          | cons t2 rest3 =>
            simp only [parseArithmeticInstruction, readArithmeticOperand_cons, readValue_cons]
            cases h1 : arithmeticKeyword (toLower t1) with
            | none => exact Or.inr ⟨rfl, by simp⟩
            | some op =>
              by_cases h2 : isValue (toLower t2) = true
              · refine Or.inl ⟨(op, input, toLower t2), ?_, ?_, ?_⟩
                · simp [h2, addInstruction]
                · simp [h2]
                · have hv : (Token.isNumber (toLower t2) || Token.isRegister (toLower t2))
                      = true := h2
                  have hop : op = ADD ∨ op = SUBTRACT ∨ op = MULTIPLY := by
                    unfold arithmeticKeyword at h1
                    split at h1
                    · exact Or.inl (Option.some.inj h1).symm
                    · split at h1
                      · exact Or.inr (Or.inl (Option.some.inj h1).symm)
                      · split at h1
                        · exact Or.inr (Or.inr (Option.some.inj h1).symm)
                        · cases h1
                  rcases hop with h | h | h <;> subst h <;> simp [wellFormed, hreg, hv]
              · exact Or.inr ⟨by simp [h2], by simp [h2]⟩
      · exact Or.inr ⟨rfl, by simp⟩

theorem parseToken_appends (q : Instructions) (input : String) (rest : IStream) :
    ∃ appended, (parseToken q input rest).instructions = q ++ appended
      ∧ ∀ i ∈ appended, wellFormed i = true := by
  rcases parseToken_attempt q input rest with ⟨i, h1, _, h3⟩ | ⟨h1, _⟩
  · exact ⟨[i], h1, fun j hj => by rw [List.mem_singleton.mp hj]; exact h3⟩
  · exact ⟨[], by simpa using h1, fun j hj => by cases hj⟩

theorem parseLoop_appends :
    ∀ (n : Nat) (q : Instructions) (s : IStream),
      ∃ appended, (parseLoop n q s).1 = q ++ appended
        ∧ ∀ i ∈ appended, wellFormed i = true := by
  intro n
  induction n with
  | zero => intro q s; exact ⟨[], by simp [parseLoop], fun j hj => by cases hj⟩
  | succ m ih =>
    intro q s
    cases s with
    | nil => exact ⟨[], by simp [parseLoop, readToken], fun j hj => by cases hj⟩
    | cons t rest =>
      obtain ⟨a1, h1, hw1⟩ := parseToken_appends q (toLower t) rest
      obtain ⟨a2, h2, hw2⟩ := ih (parseToken q (toLower t) rest).instructions
        (parseToken q (toLower t) rest).inputstream
      refine ⟨a1 ++ a2, ?_, ?_⟩
      · simp only [parseLoop, readToken]
        rw [h2, h1, List.append_assoc]
      · intro i hi
        rcases List.mem_append.mp hi with h | h
        · exact hw1 i h
        · exact hw2 i h

/-- C11: each parse attempt, the leading token `t` with the tokens behind it that it
takes, either appends exactly one instruction, which is well-formed, and writes no
line, or appends no instruction and writes at least one line; and a whole parse leaves
the instructions that were in the queue in front, in order, followed by appended
instructions that are all well-formed. -/
theorem parse_well_formed (q : Instructions) (s : IStream) :
    (∀ t rest,
      (∃ i, (parseToken q (toLower t) rest).instructions = q ++ [i]
          ∧ (parseToken q (toLower t) rest).out = [] ∧ wellFormed i = true)
      ∨ ((parseToken q (toLower t) rest).instructions = q
          ∧ (parseToken q (toLower t) rest).out ≠ []))
    ∧ ∃ appended, (parse q s).1 = q ++ appended ∧ ∀ i ∈ appended, wellFormed i = true :=
  ⟨fun t rest => parseToken_attempt q (toLower t) rest, parseLoop_appends s.length q s⟩

/-! ## The symbol table over a run -/

theorem execute_registers (fuel : Nat) :
    ∀ (L : Instructions) (T : SymbolTable) (run : Run),
      execute fuel T L = some run → (∀ e, run.signal ≠ .threw e) →
      run.registers = recordAll T ((beforeQuit L).filter isArithmetic) := by
  intro L
  induction L with
  | nil =>
    intro T run h _
    simp only [execute, Option.some.injEq] at h
    subst h
    rfl
  | cons i L ih =>
    intro T run h hsig
    obtain ⟨op, reg, value⟩ := i
    cases op with
    | QUIT =>
      simp only [execute, Option.some.injEq] at h
      subst h
      simp [beforeQuit, List.takeWhile, isQuit, recordAll]
    | PRINT =>
      simp only [execute] at h
      cases hp : printRegister T fuel reg with
      | none => simp [hp] at h
      | some pr =>
        obtain ⟨o, exn⟩ := pr
        rw [hp] at h
        cases exn with
        | some e =>
          simp only [Option.some.injEq] at h
          exact absurd (by rw [← h]) (hsig e)
        | none =>
          simp only at h
          cases hrest : execute fuel T L with
          | none => simp [hrest] at h
          | some run2 =>
            rw [hrest] at h
            simp only [Option.map_some', Option.some.injEq] at h
            subst h
            have := ih T run2 hrest (fun e => by simpa [Run.after] using hsig e)
            simpa [Run.after, beforeQuit, List.takeWhile, isQuit, isArithmetic] using this
    | ADD =>
      have := ih _ run (by simpa [execute] using h) hsig
      simpa [beforeQuit, List.takeWhile, isQuit, isArithmetic, recordAll] using this
    | SUBTRACT =>
      have := ih _ run (by simpa [execute] using h) hsig
      simpa [beforeQuit, List.takeWhile, isQuit, isArithmetic, recordAll] using this
    | MULTIPLY =>
      have := ih _ run (by simpa [execute] using h) hsig
      simpa [beforeQuit, List.takeWhile, isQuit, isArithmetic, recordAll] using this

/-- C18: when a run of `execute` on the list `L`, started on the empty table, comes to
its end (at the first quit of `L`, or at the end of `L`), the entry of every register
`r` is the sequence of the pairs of operand and value of the arithmetic instructions
against `r` in front of the first quit, in the order of `L`; and `r` is a key of the
table exactly when that sequence is not empty. -/
theorem execute_records (fuel : Nat) (L : Instructions) (run : Run)
    (hrun : execute fuel emptyTable L = some run) (hsig : ∀ e, run.signal ≠ .threw e) :
    ∀ r, (run.registers r = if recorded r L = [] then none else some (recorded r L))
      ∧ ((run.registers r).isSome = true ↔ recorded r L ≠ []) := by
  intro r
  have hreg := execute_registers fuel L emptyTable run hrun hsig
  have hrec : (against r ((beforeQuit L).filter isArithmetic)).map (fun i => (i.1, i.2.2))
      = recorded r L := by
    simp only [against, recorded, List.filter_filter]
    congr 1
    apply List.filter_congr
    intro i _
    exact Bool.and_comm _ _
  have hentry : run.registers r = if recorded r L = [] then none else some (recorded r L) := by
    rw [hreg, recordAll_apply, ← hrec]
    by_cases hnil : against r ((beforeQuit L).filter isArithmetic) = []
    · simp [hnil, emptyTable]
    · simp [hnil, emptyTable]
  refine ⟨hentry, ?_⟩
  rw [hentry]
  by_cases hnil : recorded r L = [] <;> simp [hnil]

/-- C18 on `a add 5`, `print a`, `a multiply 2`, `quit`, `a add 1`: the entry of `a` is
add 5, multiply 2, and no other register has an entry. -/
theorem execute_records_witness :
    execute 2 emptyTable
        [(ADD, "a", "5"), (PRINT, "a", ""), (MULTIPLY, "a", "2"), (QUIT, "", ""),
          (ADD, "a", "1")] = some recordedRun
    ∧ (∀ e, recordedRun.signal ≠ .threw e)
    ∧ recorded "a"
        [(ADD, "a", "5"), (PRINT, "a", ""), (MULTIPLY, "a", "2"), (QUIT, "", ""),
          (ADD, "a", "1")] = [(ADD, "5"), (MULTIPLY, "2")]
    ∧ ∀ r, (recordedRun.registers r
        = if recorded r
              [(ADD, "a", "5"), (PRINT, "a", ""), (MULTIPLY, "a", "2"), (QUIT, "", ""),
                (ADD, "a", "1")] = [] then none
          else some (recorded r
              [(ADD, "a", "5"), (PRINT, "a", ""), (MULTIPLY, "a", "2"), (QUIT, "", ""),
                (ADD, "a", "1")]))
      ∧ ((recordedRun.registers r).isSome = true
        ↔ recorded r
            [(ADD, "a", "5"), (PRINT, "a", ""), (MULTIPLY, "a", "2"), (QUIT, "", ""),
              (ADD, "a", "1")] ≠ []) :=
  ⟨rfl, (fun _ h => by cases h), by decide,
    execute_records 2 _ recordedRun rfl (fun _ h => by cases h)⟩

theorem keysAreRegisters_add (T : SymbolTable) (op : Operand) (reg value : String)
    (hT : keysAreRegisters T) (hreg : Token.isRegister reg = true) :
    keysAreRegisters (addArithmeticOperation T op reg value) := by
  intro key hkey
  by_cases h : key = reg
  · rw [h]; exact hreg
  · exact hT key (by simpa [addArithmeticOperation, h] using hkey)

theorem execute_keys (fuel : Nat) :
    ∀ (Q : Instructions) (T : SymbolTable) (run : Run),
      (∀ i ∈ Q, wellFormed i = true) → keysAreRegisters T →
      execute fuel T Q = some run → keysAreRegisters run.registers := by
  intro Q
  induction Q with
  | nil =>
    intro T run _ hT h
    simp only [execute, Option.some.injEq] at h
    subst h
    exact hT
  | cons i Q ih =>
    intro T run hQ hT h
    have hi := hQ i (List.mem_cons_self _ _)
    have hrest : ∀ j ∈ Q, wellFormed j = true := fun j hj => hQ j (List.mem_cons_of_mem _ hj)
    obtain ⟨op, reg, value⟩ := i
    cases op with
    | QUIT =>
      simp only [execute, Option.some.injEq] at h
      subst h
      exact hT
    | PRINT =>
      simp only [execute] at h
      cases hp : printRegister T fuel reg with
      | none => simp [hp] at h
      | some pr =>
        obtain ⟨o, exn⟩ := pr
        rw [hp] at h
        cases exn with
        | some e =>
          simp only [Option.some.injEq] at h
          subst h
          exact hT
        | none =>
          simp only at h
          cases hrun : execute fuel T Q with
          | none => simp [hrun] at h
          | some run2 =>
            rw [hrun] at h
            simp only [Option.map_some', Option.some.injEq] at h
            subst h
            exact ih T run2 hrest hT hrun
    | ADD =>
      have hreg : Token.isRegister reg = true := by
        simp only [wellFormed, Bool.and_eq_true] at hi; exact hi.1
      exact ih _ run hrest (keysAreRegisters_add T _ reg value hT hreg)
        (by simpa [execute] using h)
    | SUBTRACT =>
      have hreg : Token.isRegister reg = true := by
        simp only [wellFormed, Bool.and_eq_true] at hi; exact hi.1
      exact ih _ run hrest (keysAreRegisters_add T _ reg value hT hreg)
        (by simpa [execute] using h)
    | MULTIPLY =>
      have hreg : Token.isRegister reg = true := by
        simp only [wellFormed, Bool.and_eq_true] at hi; exact hi.1
      exact ih _ run hrest (keysAreRegisters_add T _ reg value hT hreg)
        (by simpa [execute] using h)

/-- C19: in the symbol table after any number of rounds, each of which executes a
queue that `parse` made from some input, every key satisfies `isRegister`; a key is
never the empty string. -/
theorem reachable_keys (T : SymbolTable) (hT : Reachable T) :
    keysAreRegisters T ∧ ∀ key, (T key).isSome = true → key ≠ "" := by
  have hkeys : keysAreRegisters T := by
    induction hT with
    | start => intro key hkey; simp [emptyTable] at hkey
    | round T2 input fuel run _ hrun ih =>
      obtain ⟨appended, happ, hwf⟩ := parseLoop_appends input.length [] input
      have hq : ∀ i ∈ (parse [] input).1, wellFormed i = true := by
        intro i hi
        have : (parse [] input).1 = appended := by simpa [parse] using happ
        rw [this] at hi
        exact hwf i hi
      exact execute_keys fuel _ T2 run hq ih hrun
  refine ⟨hkeys, fun key hkey hempty => ?_⟩
  have := hkeys key hkey
  rw [hempty] at this
  exact absurd this (by decide)

/-- C19 on the table after the one round `a add 5`. -/
theorem reachable_keys_witness :
    Reachable quitRun.registers
    ∧ quitRun.registers "a" = some [(ADD, "5")]
    ∧ (keysAreRegisters quitRun.registers
      ∧ ∀ key, (quitRun.registers key).isSome = true → key ≠ "") :=
  have h : Reachable quitRun.registers :=
    Reachable.round emptyTable ["a", "add", "5"] 0 quitRun Reachable.start rfl
  ⟨h, by decide, reachable_keys quitRun.registers h⟩

/-! ## Two calls of execute -/

theorem Run.after_after (o1 o2 : List Output) (r : Run) :
    (r.after o2).after o1 = r.after (o1 ++ o2) := by
  simp [Run.after, List.append_assoc]

theorem Run.after_nil (r : Run) : r.after [] = r := by
  simp [Run.after]

theorem execute_append_cases (fuel : Nat) :
    ∀ (Q1 : Instructions) (T : SymbolTable) (Q2 : Instructions), hasQuit Q1 = false →
      match execute fuel T Q1 with
      | none => execute fuel T (Q1 ++ Q2) = none
      | some first =>
        match first.signal with
        | .threw _ => ∃ whole, execute fuel T (Q1 ++ Q2) = some whole
            ∧ whole.outcome = first.outcome
        | .returned _ => execute fuel T (Q1 ++ Q2)
            = (execute fuel first.registers Q2).map (Run.after first.out) := by
  intro Q1
  induction Q1 with
  | nil =>
    intro T Q2 _
    simp only [execute, List.nil_append]
    cases execute fuel T Q2 with
    | none => rfl
    | some r => simp [Run.after_nil]
  | cons i Q1 ih =>
    intro T Q2 hq
    obtain ⟨op, reg, value⟩ := i
    have hq1 : hasQuit Q1 = false := by
      simp only [hasQuit, List.any_cons, Bool.or_eq_false_iff] at hq
      exact hq.2
    cases op with
    | QUIT => simp [hasQuit, isQuit] at hq
    | PRINT =>
      have hrec := ih T Q2 hq1
      simp only [List.cons_append, execute]
      cases hp : printRegister T fuel reg with
      | none => rfl
      | some pr =>
        obtain ⟨o, exn⟩ := pr
        cases exn with
        | some e => exact ⟨_, rfl, rfl⟩
        | none =>
          simp only
          cases h1 : execute fuel T Q1 with
          | none =>
            rw [h1] at hrec
            simp only at hrec
            simp [hrec]
          | some first =>
            rw [h1] at hrec
            simp only at hrec
            simp only [Option.map_some']
            cases hs : first.signal with
            | threw e =>
              rw [hs] at hrec
              obtain ⟨whole, hw, ho⟩ := hrec
              have hs2 : (first.after o).signal = .threw e := by simpa [Run.after] using hs
              rw [hs2]
              refine ⟨whole.after o, by simp [hw], ?_⟩
              simp only [Run.outcome, Prod.mk.injEq] at ho
              simp [Run.outcome, Run.after, ho.1, ho.2.1, ho.2.2]
            | returned b =>
              rw [hs] at hrec
              simp only at hrec
              have hs2 : (first.after o).signal = .returned b := by simpa [Run.after] using hs
              rw [hs2]
              simp only
              have happ : Q1.append Q2 = Q1 ++ Q2 := rfl
              rw [happ, hrec]
              have hregs : (first.after o).registers = first.registers := rfl
              have hout : (first.after o).out = o ++ first.out := rfl
              rw [hregs, hout]
              cases execute fuel first.registers Q2 with
              | none => rfl
              | some r2 => simp [Run.after, List.append_assoc]
    | ADD => simpa [execute] using ih _ Q2 hq1
    | SUBTRACT => simpa [execute] using ih _ Q2 hq1
    | MULTIPLY => simpa [execute] using ih _ Q2 hq1

/-- C20: for a list `Q1` without a quit, a call of `execute` on `Q1` followed by a call
on `Q2` on the same evaluator ends with the signal, the symbol table and the output of
one call on `Q1 ++ Q2` (and with no result when that call has none). -/
theorem execute_twice (fuel : Nat) (T : SymbolTable) (Q1 Q2 : Instructions)
    (hq : hasQuit Q1 = false) :
    (executeThen fuel T Q1 Q2).map Run.outcome
      = (execute fuel T (Q1 ++ Q2)).map Run.outcome := by
  have h := execute_append_cases fuel Q1 T Q2 hq
  unfold executeThen
  cases h1 : execute fuel T Q1 with
  | none =>
    rw [h1] at h
    simp only at h
    simp [h]
  | some first =>
    rw [h1] at h
    simp only at h ⊢
    cases hs : first.signal with
    | threw e =>
      rw [hs] at h
      obtain ⟨whole, hw, ho⟩ := h
      simp [hw, ho]
    | returned b =>
      rw [hs] at h
      simp only at h ⊢
      rw [h]

/-- C20 on `a add 5` followed by `print a`, `quit`: both ways print 5 and stop. -/
theorem execute_twice_witness :
    hasQuit [(ADD, "a", "5")] = false
    ∧ outputOf (executeThen 2 emptyTable [(ADD, "a", "5")] [(PRINT, "a", ""), (QUIT, "", "")])
        = some [.printed 5]
    ∧ outputOf (execute 2 emptyTable ([(ADD, "a", "5")] ++ [(PRINT, "a", ""), (QUIT, "", "")]))
        = some [.printed 5]
    ∧ (executeThen 2 emptyTable [(ADD, "a", "5")] [(PRINT, "a", ""), (QUIT, "", "")]).map
          Run.outcome
        = (execute 2 emptyTable ([(ADD, "a", "5")] ++ [(PRINT, "a", ""), (QUIT, "", "")])).map
          Run.outcome :=
  ⟨by decide, by decide, by decide,
    execute_twice 2 emptyTable [(ADD, "a", "5")] [(PRINT, "a", ""), (QUIT, "", "")] (by decide)⟩

/-! ## The token classifier -/

theorem char_le_iff (c d : Char) : c ≤ d ↔ c.toNat ≤ d.toNat := by
  rw [Char.le_def]; exact Iff.rfl

theorem isDigitChar_iff (c : Char) :
    Token.isDigitChar c = true ↔ 48 ≤ c.toNat ∧ c.toNat ≤ 57 := by
  simp only [Token.isDigitChar, Bool.and_eq_true, decide_eq_true_eq, char_le_iff]
  exact Iff.rfl

theorem isAlnumChar_iff (c : Char) :
    Token.isAlnumChar c = true ↔
      ((97 ≤ c.toNat ∧ c.toNat ≤ 122) ∨ (65 ≤ c.toNat ∧ c.toNat ≤ 90))
        ∨ (48 ≤ c.toNat ∧ c.toNat ≤ 57) := by
  simp only [Token.isAlnumChar, Token.isDigitChar, Bool.or_eq_true, Bool.and_eq_true,
    decide_eq_true_eq, char_le_iff]
  exact Iff.rfl

theorem mem_digits_iff (c : Char) : c ∈ digits ↔ Token.isDigitChar c = true := by
  constructor
  · intro h
    have hall : ∀ d ∈ digits, Token.isDigitChar d = true := by decide
    exact hall c h
  · intro h
    rw [isDigitChar_iff] at h
    obtain ⟨h1, h2⟩ := h
    rw [← Char.ofNat_toNat c]
    generalize c.toNat = n at h1 h2
    interval_cases n <;> decide

theorem mem_letters_iff (c : Char) :
    c ∈ letters ↔ (97 ≤ c.toNat ∧ c.toNat ≤ 122) ∨ (65 ≤ c.toNat ∧ c.toNat ≤ 90) := by
  constructor
  · intro h
    have hall : ∀ d ∈ letters,
        (97 ≤ d.toNat ∧ d.toNat ≤ 122) ∨ (65 ≤ d.toNat ∧ d.toNat ≤ 90) := by decide
    exact hall c h
  · intro h
    rw [← Char.ofNat_toNat c]
    rcases h with ⟨h1, h2⟩ | ⟨h1, h2⟩
    · generalize c.toNat = n at h1 h2
      interval_cases n <;> decide
    · generalize c.toNat = n at h1 h2
      interval_cases n <;> decide

theorem isAlnumChar_iff_mem (c : Char) :
    Token.isAlnumChar c = true ↔ c ∈ letters ∨ c ∈ digits := by
  rw [isAlnumChar_iff, mem_letters_iff, mem_digits_iff, isDigitChar_iff]

theorem not_digit_of_letter {c : Char} (h : c ∈ letters) : Token.isDigitChar c = false := by
  rw [mem_letters_iff] at h
  cases hd : Token.isDigitChar c with
  | false => rfl
  | true =>
    rw [isDigitChar_iff] at hd
    omega

theorem isNumber_iff (T : String) :
    Token.isNumber T = true ↔ ∀ c ∈ T.data, c ∈ digits := by
  simp only [Token.isNumber, List.all_eq_true, mem_digits_iff]

theorem isKeyword_iff (T : String) : Token.isKeyword T = true ↔ T ∈ keywords := by
  simp only [Token.isKeyword, Token.isQuitOperand, Token.isPrintOperand, Token.isAddOperand,
    Token.isSubtractOperand, Token.isMultiplyOperand, Bool.or_eq_true, decide_eq_true_eq,
    keywords, List.mem_cons, List.mem_singleton, List.mem_nil_iff, or_false, or_assoc]

theorem isNumber_false_of_letter (T : String) (h : ∃ c ∈ T.data, c ∈ letters) :
    Token.isNumber T = false := by
  obtain ⟨c, hc, hl⟩ := h
  cases hT : Token.isNumber T with
  | false => rfl
  | true =>
    have hd := (mem_digits_iff c).mp ((isNumber_iff T).mp hT c hc)
    rw [not_digit_of_letter hl] at hd
    cases hd

theorem isNumber_false_of_keyword (T : String) (h : T ∈ keywords) :
    Token.isNumber T = false := by
  have hall : ∀ k ∈ keywords, Token.isNumber k = false := by decide
  exact hall T h

/-- C14: `isNumber(T)` is true if and only if every character of `T` is one of the
decimal digits 0 to 9; so it is true for the empty string, and false for a string that
holds a letter or any other character that is no digit. -/
theorem isNumber_spec (T : String) :
    (Token.isNumber T = true ↔ ∀ c ∈ T.data, c ∈ digits)
    ∧ Token.isNumber "" = true
    ∧ ((∃ c ∈ T.data, c ∈ letters) → Token.isNumber T = false)
    ∧ ((∃ c ∈ T.data, c ∉ digits) → Token.isNumber T = false) := by
  refine ⟨isNumber_iff T, by decide, isNumber_false_of_letter T, ?_⟩
  · rintro ⟨c, hc, hn⟩
    cases h : Token.isNumber T with
    | false => rfl
    | true => exact absurd ((isNumber_iff T).mp h c hc) hn

/-- C13: `isRegister(T)` is true if and only if every character of `T` is an ASCII
letter or digit, some character of `T` is a letter, and `T` is none of the five
keywords; so no string of digits only, the empty string among them, and no keyword is a
register. -/
theorem isRegister_spec (T : String) :
    (Token.isRegister T = true ↔
      (∀ c ∈ T.data, c ∈ letters ∨ c ∈ digits) ∧ (∃ c ∈ T.data, c ∈ letters) ∧ T ∉ keywords)
    ∧ ((∀ c ∈ T.data, c ∈ digits) → Token.isRegister T = false)
    ∧ Token.isRegister "" = false
    ∧ (T ∈ keywords → Token.isRegister T = false) := by
  have hiff : Token.isRegister T = true ↔
      (∀ c ∈ T.data, c ∈ letters ∨ c ∈ digits) ∧ (∃ c ∈ T.data, c ∈ letters)
        ∧ T ∉ keywords := by
    simp only [Token.isRegister, Bool.and_eq_true, Bool.not_eq_true', List.all_eq_true,
      isAlnumChar_iff_mem]
    constructor
    · rintro ⟨⟨hall, hnum⟩, hkey⟩
      refine ⟨hall, ?_, ?_⟩
      · by_contra hno
        have : Token.isNumber T = true := by
          rw [isNumber_iff]
          intro c hc
          rcases hall c hc with hl | hd
          · exact absurd ⟨c, hc, hl⟩ hno
          · exact hd
        rw [this] at hnum
        cases hnum
      · intro hk
        rw [(isKeyword_iff T).mpr hk] at hkey
        cases hkey
    · rintro ⟨hall, ⟨c, hc, hl⟩, hkey⟩
      refine ⟨⟨hall, ?_⟩, ?_⟩
      · exact isNumber_false_of_letter T ⟨c, hc, hl⟩
      · cases hk : Token.isKeyword T with
        | false => rfl
        | true => exact absurd ((isKeyword_iff T).mp hk) hkey
  refine ⟨hiff, ?_, by decide, ?_⟩
  · intro hd
    cases h : Token.isRegister T with
    | false => rfl
    | true =>
      obtain ⟨_, ⟨c, hc, hl⟩, _⟩ := hiff.mp h
      have := (mem_digits_iff c).mp (hd c hc)
      rw [not_digit_of_letter hl] at this
      cases this
  · intro hk
    cases h : Token.isRegister T with
    | false => rfl
    | true => exact absurd hk (hiff.mp h).2.2

/-- C15: a token made of ASCII letters and digits only is exactly one of a number, a
register and a keyword; and no string at all is two of them at once. -/
theorem classes_exclusive (T : String) (halnum : ∀ c ∈ T.data, c ∈ letters ∨ c ∈ digits) :
    ((Token.isNumber T = true ∧ Token.isRegister T = false ∧ Token.isKeyword T = false)
      ∨ (Token.isNumber T = false ∧ Token.isRegister T = true ∧ Token.isKeyword T = false)
      ∨ (Token.isNumber T = false ∧ Token.isRegister T = false ∧ Token.isKeyword T = true))
    ∧ ∀ S : String,
      ¬ (Token.isNumber S = true ∧ Token.isRegister S = true)
      ∧ ¬ (Token.isNumber S = true ∧ Token.isKeyword S = true)
      ∧ ¬ (Token.isRegister S = true ∧ Token.isKeyword S = true) := by
  have hall : T.data.all Token.isAlnumChar = true := by
    simp only [List.all_eq_true, isAlnumChar_iff_mem]
    exact halnum
  constructor
  · cases hn : Token.isNumber T with
    | true =>
      refine Or.inl ⟨rfl, by simp [Token.isRegister, hn], ?_⟩
      cases hk : Token.isKeyword T with
      | false => rfl
      | true =>
        rw [isNumber_false_of_keyword T ((isKeyword_iff T).mp hk)] at hn
        cases hn
    | false =>
      cases hk : Token.isKeyword T with
      | true => exact Or.inr (Or.inr ⟨rfl, by simp [Token.isRegister, hk], rfl⟩)
      | false => exact Or.inr (Or.inl ⟨rfl, by simp [Token.isRegister, hall, hn, hk], rfl⟩)
  · intro S
    refine ⟨?_, ?_, ?_⟩
    · rintro ⟨h1, h2⟩
      simp [Token.isRegister, h1] at h2
    · rintro ⟨h1, h2⟩
      rw [isNumber_false_of_keyword S ((isKeyword_iff S).mp h2)] at h1
      cases h1
    · rintro ⟨h1, h2⟩
      simp [Token.isRegister, h2] at h1

/-- C15 on the token `a1`, which is a register and neither a number nor a keyword. -/
theorem classes_exclusive_witness :
    (∀ c ∈ "a1".data, c ∈ letters ∨ c ∈ digits)
    ∧ (Token.isNumber "a1" = false ∧ Token.isRegister "a1" = true
        ∧ Token.isKeyword "a1" = false)
    ∧ (((Token.isNumber "a1" = true ∧ Token.isRegister "a1" = false
          ∧ Token.isKeyword "a1" = false)
        ∨ (Token.isNumber "a1" = false ∧ Token.isRegister "a1" = true
          ∧ Token.isKeyword "a1" = false)
        ∨ (Token.isNumber "a1" = false ∧ Token.isRegister "a1" = false
          ∧ Token.isKeyword "a1" = true))
      ∧ ∀ S : String,
        ¬ (Token.isNumber S = true ∧ Token.isRegister S = true)
        ∧ ¬ (Token.isNumber S = true ∧ Token.isKeyword S = true)
        ∧ ¬ (Token.isRegister S = true ∧ Token.isKeyword S = true)) :=
  ⟨by decide, by decide, classes_exclusive "a1" (by decide)⟩

/-! ## Number tokens -/

theorem foldl_digits (cs : List Char) :
    ∀ acc : Nat, cs.foldl (fun acc c => 10 * acc + (c.toNat - 48)) acc
      = acc * 10 ^ cs.length + Nat.ofDigits 10 (cs.reverse.map (fun c => c.toNat - 48)) := by
  induction cs with
  | nil => intro acc; simp
  | cons c cs ih =>
    intro acc
    rw [List.foldl_cons, ih, List.reverse_cons, List.map_append, Nat.ofDigits_append]
    simp only [List.length_cons, List.map_cons, List.map_nil, Nat.ofDigits_singleton,
      List.length_map, List.length_reverse]
    ring

theorem digitsValue_eq_denoted (T : String) : digitsValue T.data = denoted T := by
  unfold digitsValue denoted
  rw [foldl_digits]
  simp

theorem evaluateValue_of_isNumber (T : SymbolTable) (fuel : Nat) (tok : String)
    (hnum : Token.isNumber tok = true) :
    evaluateValue T (fuel + 1) tok =
      match stol tok with
      | .ok outvalue => some ([], .ok outvalue)
      | .error e => some ([], .thrown e) := by
  simp [evaluateValue, hnum]

/-- C16, as the claim states it, fails on two number tokens: on the digits of 2^63,
which `std::stol` rejects as out of range, and on the empty string, on which it can
make no conversion. On either, `evaluateValue` ends with the exception and returns no
value, for any table. -/
theorem evaluateValue_number_counterexample :
    (Token.isNumber "9223372036854775808" = true
      ∧ (∀ T fuel, evaluateValue T (fuel + 1) "9223372036854775808"
          = some ([], .thrown .out_of_range))
      ∧ ¬ ∃ T out v, Evaluates T "9223372036854775808" out (.ok v))
    ∧ (Token.isNumber "" = true
      ∧ (∀ T fuel, evaluateValue T (fuel + 1) "" = some ([], .thrown .invalid_argument))
      ∧ ¬ ∃ T out v, Evaluates T "" out (.ok v)) := by
  have h1 : ∀ T fuel, evaluateValue T (fuel + 1) "9223372036854775808"
      = some ([], .thrown .out_of_range) := by
    intro T fuel
    rw [evaluateValue_of_isNumber T fuel _ (by decide)]
    have : stol "9223372036854775808" = .error .out_of_range := by decide
    rw [this]
  have h2 : ∀ T fuel, evaluateValue T (fuel + 1) "" = some ([], .thrown .invalid_argument) := by
    intro T fuel
    rw [evaluateValue_of_isNumber T fuel _ (by decide)]
    rfl
  refine ⟨⟨by decide, h1, ?_⟩, ⟨by decide, h2, ?_⟩⟩
  · rintro ⟨T, out, v, fuel, h⟩
    cases fuel with
    | zero => simp [evaluateValue] at h
    | succ n => rw [h1] at h; simp at h
  · rintro ⟨T, out, v, fuel, h⟩
    cases fuel with
    | zero => simp [evaluateValue] at h
    | succ n => rw [h2] at h; simp at h

/-- C16, amended: for a number token `tok` that is not empty and denotes an integer of
at most `LONG_MAX`, `evaluateValue(tok)` returns true, writes nothing, and sets the
value to the integer `tok` denotes as an unsigned base 10 numeral, leading zeros
allowed; the symbol table has no part in it, the outcome is that of any other table. -/
theorem evaluateValue_number (T : SymbolTable) (fuel : Nat) (tok : String)
    (hnum : Token.isNumber tok = true) (hne : tok ≠ "")
    (hrange : (denoted tok : Int) ≤ LONG_MAX) :
    evaluateValue T (fuel + 1) tok = some ([], .ok (denoted tok))
    ∧ Evaluates T tok [] (.ok (denoted tok))
    ∧ ∀ T2 : SymbolTable, evaluateValue T2 (fuel + 1) tok = evaluateValue T (fuel + 1) tok := by
  have hdata : tok.data ≠ [] := by
    intro h
    apply hne
    cases tok
    simp only at h
    subst h
    rfl
  have hstol : stol tok = .ok (denoted tok) := by
    unfold stol
    rw [if_neg hdata, digitsValue_eq_denoted, if_pos hrange]
  have hev : ∀ T3 : SymbolTable,
      evaluateValue T3 (fuel + 1) tok = some ([], .ok (denoted tok)) := by
    intro T3
    rw [evaluateValue_of_isNumber T3 fuel tok hnum, hstol]
  exact ⟨hev T, ⟨fuel + 1, hev T⟩, fun T2 => by rw [hev T2, hev T]⟩

/-- C16 on the token `007`, which evaluates to 7. -/
theorem evaluateValue_number_witness :
    Token.isNumber "007" = true ∧ "007" ≠ "" ∧ ((denoted "007" : Nat) : Int) ≤ LONG_MAX
    ∧ denoted "007" = 7
    ∧ (evaluateValue emptyTable (0 + 1) "007" = some ([], .ok (denoted "007"))
      ∧ Evaluates emptyTable "007" [] (.ok (denoted "007"))
      ∧ ∀ T2 : SymbolTable,
        evaluateValue T2 (0 + 1) "007" = evaluateValue emptyTable (0 + 1) "007") :=
  ⟨by decide, by decide, by decide, by decide,
    evaluateValue_number emptyTable 0 "007" (by decide) (by decide) (by decide)⟩

/-! ## Registers that depend on themselves -/

theorem evaluateOperations_none {ev : String → Option (List Output × Eval)}
    (s : String) (op : Operand) (post : Operations) (hs : ev s = none) :
    ∀ (pre : Operations), (∀ e ∈ pre, ev e.2 = none ∨ ∃ o v, ev e.2 = some (o, .ok v)) →
      ∀ acc, evaluateOperations ev (pre ++ (op, s) :: post) acc = none := by
  intro pre
  induction pre with
  | nil => intro _ acc; simp [evaluateOperations, hs]
  | cons p pre ih =>
    intro h acc
    obtain ⟨operand, operandvalue⟩ := p
    have happ : (operand, operandvalue) :: pre ++ (op, s) :: post
        = (operand, operandvalue) :: (pre ++ (op, s) :: post) := rfl
    rw [happ, evaluateOperations]
    rcases h (operand, operandvalue) (List.mem_cons_self _ _) with hnone | ⟨o, v, hv⟩
    · simp only at hnone
      rw [hnone]
    · simp only at hv
      rw [hv]
      simp only
      rw [ih (fun e he => h e (List.mem_cons_of_mem _ he))]

theorem evaluateValue_none_of_cycle (T : SymbolTable) :
    ∀ (fuel : Nat) (r : String), Relation.TransGen (descends T) r r →
      evaluateValue T fuel r = none := by
  intro fuel
  induction fuel with
  | zero => intro r _; rfl
  | succ n ih =>
    intro r hr
    obtain ⟨y, hry, hyr⟩ := Relation.TransGen.head'_iff.mp hr
    have hy : Relation.TransGen (descends T) y y := Relation.TransGen.tail' hyr hry
    obtain ⟨hnum, pre, op, post, hT, hpre⟩ := hry
    simp only [evaluateValue, hnum, hT]
    apply evaluateOperations_none y op post (ih y hy) pre
    intro e he
    obtain ⟨v, hv⟩ := hpre e he
    cases hev : evaluateValue T n e.2 with
    | none => exact Or.inl rfl
    | some res =>
      obtain ⟨o, r2⟩ := res
      have := Evaluates.unique ⟨n, hev⟩ hv
      exact Or.inr ⟨o, v, by rw [this.2]⟩

/-- C17, as the claim states it, fails after `a add a`: the register `a` references
itself, and its evaluation has no outcome for any bound on the recursion, neither a
value nor a reported error. -/
theorem evaluateValue_cycle_counterexample :
    references cycleTable "a" "a"
    ∧ ¬ ∃ fuel res, evaluateValue cycleTable fuel "a" = some res := by
  refine ⟨⟨by decide, by decide, [(ADD, "a")], by decide, ADD, by decide⟩, ?_⟩
  rintro ⟨fuel, res, h⟩
  rw [evaluateValue_cycleTable] at h
  cases h

/-- C17, amended: when a register depends on itself through entries that its
evaluation comes to (in each operation list on the way, the entries in front of the
one that is followed evaluate to a value), the evaluation of that register has no
outcome for any bound on the recursion: it does not end and reports no error. -/
theorem evaluateValue_cycle (T : SymbolTable) (r : String)
    (hcycle : Relation.TransGen (descends T) r r) :
    (∀ fuel, evaluateValue T fuel r = none)
    ∧ ¬ ∃ out res, Evaluates T r out res := by
  refine ⟨fun fuel => evaluateValue_none_of_cycle T fuel r hcycle, ?_⟩
  rintro ⟨out, res, fuel, h⟩
  rw [evaluateValue_none_of_cycle T fuel r hcycle] at h
  cases h

/-- C17 on the table of `a add b`, `b add a` and the register `a`. -/
theorem evaluateValue_cycle_witness :
    Relation.TransGen (descends twoCycleTable) "a" "a"
    ∧ ((∀ fuel, evaluateValue twoCycleTable fuel "a" = none)
      ∧ ¬ ∃ out res, Evaluates twoCycleTable "a" out res) :=
  have hab : descends twoCycleTable "a" "b" :=
    ⟨by decide, [], ADD, [], by decide, fun e he => by cases he⟩
  have hba : descends twoCycleTable "b" "a" :=
    ⟨by decide, [], ADD, [], by decide, fun e he => by cases he⟩
  have h : Relation.TransGen (descends twoCycleTable) "a" "a" :=
    Relation.TransGen.head hab (Relation.TransGen.single hba)
  ⟨h, evaluateValue_cycle twoCycleTable "a" h⟩

/-! ## Letter case -/

theorem char_toLower_toLower (c : Char) : (c.toLower).toLower = c.toLower := by
  by_cases h : c.toNat ≥ 65 ∧ c.toNat ≤ 90
  · have hc : c.toLower = Char.ofNat (c.toNat + 32) := by simp [Char.toLower, h]
    rw [hc]
    obtain ⟨h1, h2⟩ := h
    generalize c.toNat = n at h1 h2
    interval_cases n <;> decide
  · have hc : c.toLower = c := by simp only [Char.toLower]; rw [if_neg h]
    rw [hc, hc]

theorem toLower_toLower (t : String) : toLower (toLower t) = toLower t := by
  have hcomp : Char.toLower ∘ Char.toLower = Char.toLower :=
    funext (fun c => char_toLower_toLower c)
  simp [toLower, hcomp]

theorem toLower_empty : toLower "" = "" := by decide

theorem parseToken_map_toLower (q : Instructions) (input : String) (rest : IStream) :
    parseToken q input (rest.map toLower)
      = ⟨(parseToken q input rest).instructions, (parseToken q input rest).out,
          (parseToken q input rest).inputstream.map toLower⟩ := by
  unfold parseToken
  split
  · rfl
  · split
    · cases rest with
      | nil => rfl
      | cons t rest2 =>
        simp only [List.map_cons, parsePrintInstruction, readRegister_cons, toLower_toLower]
        by_cases ht : Token.isRegister (toLower t) = true <;> simp [ht]
    · split
      · cases rest with
        | nil => rfl
        | cons t1 rest2 =>
          cases rest2 with
          | nil =>
            simp [parseArithmeticInstruction, readArithmeticOperand_cons, readValue_nil,
              toLower_toLower]
          | cons t2 rest3 =>
            simp [parseArithmeticInstruction, readArithmeticOperand_cons, readValue_cons,
              toLower_toLower]
      · rfl

theorem parseLoop_map_toLower :
    ∀ (n : Nat) (q : Instructions) (s : IStream),
      parseLoop n q (s.map toLower) = parseLoop n q s := by
  intro n
  induction n with
  | zero => intro q s; rfl
  | succ m ih =>
    intro q s
    cases s with
    | nil => rfl
    | cons t rest =>
      simp only [List.map_cons, parseLoop, readToken, toLower_toLower]
      rw [parseToken_map_toLower]
      simp only
      rw [ih]

theorem parseToken_inLowerCase (q : Instructions) (t : String) (rest : IStream) :
    ∃ appended, (parseToken q (toLower t) rest).instructions = q ++ appended
      ∧ ∀ i ∈ appended, inLowerCase i := by
  unfold parseToken
  split
  · exact ⟨[(QUIT, "", "")], rfl, fun i hi => by
      rw [List.mem_singleton.mp hi]; exact ⟨toLower_empty, toLower_empty⟩⟩
  · split
    · cases rest with
      | nil => exact ⟨[], by simp [parsePrintInstruction, readRegister_nil],
          fun i hi => by cases hi⟩
      | cons t1 rest2 =>
        by_cases ht : Token.isRegister (toLower t1) = true
        · refine ⟨[(PRINT, toLower t1, "")], ?_, fun i hi => ?_⟩
          · simp [parsePrintInstruction, readRegister_cons, ht, addInstruction]
          · rw [List.mem_singleton.mp hi]
            exact ⟨toLower_toLower t1, toLower_empty⟩
        · exact ⟨[], by simp [parsePrintInstruction, readRegister_cons, ht],
            fun i hi => by cases hi⟩
    · split
      · cases rest with
        | nil =>
          exact ⟨[], by
            simp [parseArithmeticInstruction, readArithmeticOperand_nil, readValue_nil],
            fun i hi => by cases hi⟩
        | cons t1 rest2 =>
          cases rest2 with
          | nil =>
            refine ⟨[], ?_, fun i hi => by cases hi⟩
            simp only [parseArithmeticInstruction, readArithmeticOperand_cons, readValue_nil]
            cases arithmeticKeyword (toLower t1) <;> simp
          | cons t2 rest3 =>
            simp only [parseArithmeticInstruction, readArithmeticOperand_cons, readValue_cons]
            cases h1 : arithmeticKeyword (toLower t1) with
            | none => exact ⟨[], by simp, fun i hi => by cases hi⟩
            | some op =>
              by_cases h2 : isValue (toLower t2) = true
              · refine ⟨[(op, toLower t, toLower t2)], ?_, fun i hi => ?_⟩
                · simp [h2, addInstruction]
                · rw [List.mem_singleton.mp hi]
                  exact ⟨toLower_toLower t, toLower_toLower t2⟩
              · exact ⟨[], by simp [h2], fun i hi => by cases hi⟩
      · exact ⟨[], by simp, fun i hi => by cases hi⟩

theorem parseLoop_inLowerCase :
    ∀ (n : Nat) (q : Instructions) (s : IStream),
      ∃ appended, (parseLoop n q s).1 = q ++ appended ∧ ∀ i ∈ appended, inLowerCase i := by
  intro n
  induction n with
  | zero => intro q s; exact ⟨[], by simp [parseLoop], fun j hj => by cases hj⟩
  | succ m ih =>
    intro q s
    cases s with
    | nil => exact ⟨[], by simp [parseLoop, readToken], fun j hj => by cases hj⟩
    | cons t rest =>
      obtain ⟨a1, h1, hw1⟩ := parseToken_inLowerCase q t rest
      obtain ⟨a2, h2, hw2⟩ := ih (parseToken q (toLower t) rest).instructions
        (parseToken q (toLower t) rest).inputstream
      refine ⟨a1 ++ a2, ?_, ?_⟩
      · simp only [parseLoop, readToken]
        rw [h2, h1, List.append_assoc]
      · intro i hi
        rcases List.mem_append.mp hi with h | h
        · exact hw1 i h
        · exact hw2 i h

/-- C12: a parse of a token stream gives the queue and the lines of the parse of the
stream with every token converted to lower case, so that a keyword in any letter case
is taken as its lower case form; and the register and the value of every instruction
that the parse appends are in lower case. -/
theorem parse_case_insensitive (q : Instructions) (s : IStream) :
    parse q s = parse q (s.map toLower)
    ∧ parse [] ["A", "ADD", "5", "Print", "A", "QUIT"]
        = ([(ADD, "a", "5"), (PRINT, "a", ""), (QUIT, "", "")], [])
    ∧ ∃ appended, (parse q s).1 = q ++ appended ∧ ∀ i ∈ appended, inLowerCase i := by
  refine ⟨?_, by decide, parseLoop_inLowerCase s.length q s⟩
  unfold parse
  rw [List.length_map, parseLoop_map_toLower]

/-! ## Print leaves the table alone -/

theorem execute_print_cons (fuel : Nat) (T : SymbolTable) (r val : String)
    (out : List Output) (res : Eval) (hev : evaluateValue T fuel r = some (out, res))
    (hres : ∀ e, res ≠ .thrown e) :
    ∃ o, printRegister T fuel r = some (o, none)
      ∧ (∀ v, res = .ok v → o = out ++ [.printed v]) ∧ (res = .fail → o = out)
      ∧ ∀ rest, execute fuel T ((PRINT, r, val) :: rest)
          = (execute fuel T rest).map (Run.after o) := by
  cases res with
  | ok v =>
    have hp : printRegister T fuel r = some (out ++ [.printed v], none) := by
      simp [printRegister, hev]
    refine ⟨out ++ [.printed v], hp, ?_, ?_, fun rest => by simp [execute, hp]⟩
    · intro w hw
      cases hw
      rfl
    · intro h; cases h
  | fail =>
    have hp : printRegister T fuel r = some (out, none) := by
      simp [printRegister, hev]
    refine ⟨out, hp, ?_, ?_, fun rest => by simp [execute, hp]⟩
    · intro w hw; cases hw
    · intro _; rfl
  | thrown e => exact absurd rfl (hres e)

theorem execute_print_registers (fuel : Nat) (T : SymbolTable) (r val : String) (run : Run)
    (h : execute fuel T [(PRINT, r, val)] = some run) : run.registers = T := by
  simp only [execute] at h
  cases hp : printRegister T fuel r with
  | none => simp [hp] at h
  | some pr =>
    obtain ⟨o, exn⟩ := pr
    rw [hp] at h
    cases exn with
    | some e =>
      simp only [Option.some.injEq] at h
      rw [← h]
    | none =>
      simp only [Option.map_some', Option.some.injEq] at h
      rw [← h]
      rfl

/-- C22: a print instruction leaves the symbol table exactly as it was, however its
evaluation ends; and when the evaluation returns true or false, the print writes its
lines `o`, goes on with the rest of the queue on the same table, and a second print of
the same register right behind it writes the same lines `o` again. -/
theorem print_frame (fuel : Nat) (T : SymbolTable) (r val : String) :
    (∀ run, execute fuel T [(PRINT, r, val)] = some run → run.registers = T)
    ∧ ∀ out res, evaluateValue T fuel r = some (out, res) → (∀ e, res ≠ .thrown e) →
      ∃ o, execute fuel T [(PRINT, r, val)] = some ⟨.returned true, T, [], o⟩
        ∧ execute fuel T [(PRINT, r, val), (PRINT, r, val)]
            = some ⟨.returned true, T, [], o ++ o⟩
        ∧ ∀ rest, execute fuel T ((PRINT, r, val) :: rest)
            = (execute fuel T rest).map (Run.after o) := by
  refine ⟨fun run h => execute_print_registers fuel T r val run h, ?_⟩
  intro out res hev hres
  obtain ⟨o, _, _, _, hstep⟩ := execute_print_cons fuel T r val out res hev hres
  refine ⟨o, ?_, ?_, hstep⟩
  · rw [hstep]
    simp [execute, Run.after]
  · rw [hstep, hstep]
    simp [execute, Run.after]

/-! ## Termination on acyclic tables -/

theorem evaluateOperations_some {ev : String → Option (List Output × Eval)} :
    ∀ (ops : Operations), (∀ e ∈ ops, ∃ res, ev e.2 = some res) →
      ∀ acc, ∃ res, evaluateOperations ev ops acc = some res := by
  intro ops
  induction ops with
  | nil => intro _ acc; exact ⟨_, rfl⟩
  | cons p rest ih =>
    intro h acc
    obtain ⟨operand, operandvalue⟩ := p
    obtain ⟨res, hres⟩ := h (operand, operandvalue) (List.mem_cons_self _ _)
    obtain ⟨o, r⟩ := res
    simp only at hres
    simp only [evaluateOperations, hres]
    cases r with
    | ok val =>
      obtain ⟨res2, h2⟩ := ih (fun e he => h e (List.mem_cons_of_mem _ he))
        (applyOperand operand acc val)
      simp only [h2]
      exact ⟨_, rfl⟩
    | fail => exact ⟨_, rfl⟩
    | thrown e => exact ⟨_, rfl⟩

theorem common_fuel_some (T : SymbolTable) :
    ∀ (ops : Operations), (∀ e ∈ ops, ∃ out res, Evaluates T e.2 out res) →
      ∃ fuel, ∀ e ∈ ops, ∃ res, evaluateValue T fuel e.2 = some res := by
  intro ops
  induction ops with
  | nil => intro _; exact ⟨0, fun e he => by cases he⟩
  | cons p rest ih =>
    intro h
    obtain ⟨out, res, n, hn⟩ := h p (List.mem_cons_self _ _)
    obtain ⟨m, hm⟩ := ih (fun e he => h e (List.mem_cons_of_mem _ he))
    refine ⟨max n m, fun e he => ?_⟩
    rcases List.mem_cons.mp he with rfl | hmem
    · exact ⟨_, evaluateValue_mono T (Nat.le_max_left n m) hn⟩
    · obtain ⟨res2, h2⟩ := hm e hmem
      exact ⟨res2, evaluateValue_mono T (Nat.le_max_right n m) h2⟩

theorem evaluates_number (T : SymbolTable) (tok : String) (h : Token.isNumber tok = true) :
    ∃ out res, Evaluates T tok out res := by
  cases hs : stol tok with
  | ok v => exact ⟨[], .ok v, 1, by simp [evaluateValue, h, hs]⟩
  | error e => exact ⟨[], .thrown e, 1, by simp [evaluateValue, h, hs]⟩

/-- C23: in a table whose register dependencies are acyclic, `evaluateValue` comes to
an end on every token: some bound on the recursion is enough for an outcome (a value,
a failed lookup, or the exception of `std::stol` on a literal). The proof is by
well-founded recursion along the reference relation. -/
theorem evaluateValue_terminates (T : SymbolTable) (hacyc : Acyclic T) (tok : String) :
    (∃ out res, Evaluates T tok out res)
    ∧ ∃ fuel out res, ∀ fuel2, fuel ≤ fuel2 → evaluateValue T fuel2 tok = some (out, res) := by
  have hterm : ∃ out res, Evaluates T tok out res := by
    induction tok using hacyc.induction with
    | _ r ih =>
      by_cases hr : Token.isNumber r = true
      · exact evaluates_number T r hr
      · have hr2 : Token.isNumber r = false := by simpa using hr
        cases hT : T r with
        | none => exact ⟨[.lookupError r], .fail, 1, by simp [evaluateValue, hr2, hT]⟩
        | some ops =>
          have hall : ∀ e ∈ ops, ∃ out res, Evaluates T e.2 out res := by
            intro e he
            obtain ⟨op, s⟩ := e
            by_cases hs : Token.isNumber s = true
            · exact evaluates_number T s hs
            · have hs2 : Token.isNumber s = false := by simpa using hs
              exact ih s ⟨hr2, hs2, ops, hT, op, he⟩
          obtain ⟨n, hn⟩ := common_fuel_some T ops hall
          obtain ⟨res, hres⟩ := evaluateOperations_some ops hn 0
          exact ⟨res.1, res.2, n + 1, by simp [evaluateValue, hr2, hT, hres]⟩
  obtain ⟨out, res, fuel, h⟩ := hterm
  exact ⟨⟨out, res, fuel, h⟩, fuel, out, res, fun fuel2 hle => evaluateValue_mono T hle h⟩

/-- C23 on the table of `a add b`, `b add 1` and the token `a`. -/
theorem evaluateValue_terminates_witness :
    Acyclic forwardTable
    ∧ evaluateValue forwardTable 3 "a" = some ([], .ok 1)
    ∧ ((∃ out res, Evaluates forwardTable "a" out res)
      ∧ ∃ fuel out res, ∀ fuel2, fuel ≤ fuel2 →
          evaluateValue forwardTable fuel2 "a" = some (out, res)) :=
  ⟨forwardTable_acyclic, by decide, evaluateValue_terminates forwardTable forwardTable_acyclic "a"⟩

/-! ## Tokens are not empty -/

theorem mk_ne_empty {l : List Char} (h : l ≠ []) : (⟨l⟩ : String) ≠ "" := by
  intro hs
  apply h
  have := congrArg String.data hs
  simpa using this

theorem ne_empty_data {t : String} (h : t ≠ "") : t.data ≠ [] := by
  intro hd
  apply h
  cases t
  simp only at hd
  subst hd
  rfl

theorem toLower_ne_empty {t : String} (h : t ≠ "") : toLower t ≠ "" := by
  apply mk_ne_empty
  intro hmap
  exact ne_empty_data h (List.map_eq_nil_iff.mp hmap)

theorem extractWords_ne_empty :
    ∀ (text word : List Char), ∀ w ∈ extractWords text word, w ≠ "" := by
  intro text
  induction text with
  | nil =>
    intro word w hw
    simp only [extractWords] at hw
    by_cases h : word = []
    · simp [h] at hw
    · simp only [h, if_false, List.mem_singleton] at hw
      rw [hw]
      exact mk_ne_empty (by simpa using h)
  | cons c text ih =>
    intro word w hw
    simp only [extractWords] at hw
    by_cases hc : isSpace c = true
    · simp only [hc, if_true] at hw
      by_cases h : word = []
      · simp only [h, if_true] at hw
        exact ih [] w hw
      · simp only [h, if_false, List.mem_cons] at hw
        rcases hw with rfl | hw
        · exact mk_ne_empty (by simpa using h)
        · exact ih [] w hw
    · simp only [hc] at hw
      exact ih (c :: word) w hw

theorem isRegister_ne_empty {tok : String} (h : Token.isRegister tok = true) : tok ≠ "" := by
  intro he
  rw [he] at h
  exact absurd h (by decide)

theorem parseToken_stream_subset (q : Instructions) (input : String) (rest : IStream) :
    ∀ w ∈ (parseToken q input rest).inputstream, w ∈ rest := by
  unfold parseToken
  split
  · exact fun w hw => hw
  · split
    · cases rest with
      | nil => simp [parsePrintInstruction, readRegister_nil]
      | cons t rest2 =>
        simp only [parsePrintInstruction, readRegister_cons]
        by_cases ht : Token.isRegister (toLower t) = true <;> simp [ht] <;>
          exact fun w hw => Or.inr hw
    · split
      · rw [parseArithmeticInstruction_stream]
        exact fun w hw => List.mem_of_mem_drop hw
      · exact fun w hw => hw

theorem parseToken_nonEmptyFields (q : Instructions) (input : String) (rest : IStream)
    (hrest : ∀ w ∈ rest, w ≠ "") :
    ∃ appended, (parseToken q input rest).instructions = q ++ appended
      ∧ ∀ i ∈ appended, nonEmptyFields i := by
  unfold parseToken
  split
  · exact ⟨[(QUIT, "", "")], rfl, fun i hi => by
      rw [List.mem_singleton.mp hi]; exact True.intro⟩
  · split
    · cases rest with
      | nil => exact ⟨[], by simp [parsePrintInstruction, readRegister_nil],
          fun i hi => by cases hi⟩
      | cons t1 rest2 =>
        by_cases ht : Token.isRegister (toLower t1) = true
        · refine ⟨[(PRINT, toLower t1, "")], ?_, fun i hi => ?_⟩
          · simp [parsePrintInstruction, readRegister_cons, ht, addInstruction]
          · rw [List.mem_singleton.mp hi]
            exact isRegister_ne_empty ht
        · exact ⟨[], by simp [parsePrintInstruction, readRegister_cons, ht],
            fun i hi => by cases hi⟩
    · split
      · rename_i hreg
        cases rest with
        | nil =>
          exact ⟨[], by
            simp [parseArithmeticInstruction, readArithmeticOperand_nil, readValue_nil],
            fun i hi => by cases hi⟩
        | cons t1 rest2 =>
          cases rest2 with
          | nil =>
            refine ⟨[], ?_, fun i hi => by cases hi⟩
            simp only [parseArithmeticInstruction, readArithmeticOperand_cons, readValue_nil]
            cases arithmeticKeyword (toLower t1) <;> simp
          | cons t2 rest3 =>
            simp only [parseArithmeticInstruction, readArithmeticOperand_cons, readValue_cons]
            cases h1 : arithmeticKeyword (toLower t1) with
            | none => exact ⟨[], by simp, fun i hi => by cases hi⟩
            | some op =>
              by_cases h2 : isValue (toLower t2) = true
              · refine ⟨[(op, input, toLower t2)], ?_, fun i hi => ?_⟩
                · simp [h2, addInstruction]
                · rw [List.mem_singleton.mp hi]
                  have hv : toLower t2 ≠ "" := toLower_ne_empty
                    (hrest t2 (List.mem_cons_of_mem _ (List.mem_cons_self _ _)))
                  have hi2 : input ≠ "" := isRegister_ne_empty hreg
                  cases op <;> first | exact ⟨hi2, hv⟩ | exact hi2 | exact True.intro
              · exact ⟨[], by simp [h2], fun i hi => by cases hi⟩
      · exact ⟨[], by simp, fun i hi => by cases hi⟩

theorem parseLoop_nonEmptyFields :
    ∀ (n : Nat) (q : Instructions) (s : IStream), (∀ w ∈ s, w ≠ "") →
      ∃ appended, (parseLoop n q s).1 = q ++ appended ∧ ∀ i ∈ appended, nonEmptyFields i := by
  intro n
  induction n with
  | zero => intro q s _; exact ⟨[], by simp [parseLoop], fun j hj => by cases hj⟩
  | succ m ih =>
    intro q s hs
    cases s with
    | nil => exact ⟨[], by simp [parseLoop, readToken], fun j hj => by cases hj⟩
    | cons t rest =>
      have hrest : ∀ w ∈ rest, w ≠ "" := fun w hw => hs w (List.mem_cons_of_mem _ hw)
      obtain ⟨a1, h1, hw1⟩ := parseToken_nonEmptyFields q (toLower t) rest hrest
      obtain ⟨a2, h2, hw2⟩ := ih (parseToken q (toLower t) rest).instructions
        (parseToken q (toLower t) rest).inputstream
        (fun w hw => hrest w (parseToken_stream_subset q (toLower t) rest w hw))
      refine ⟨a1 ++ a2, ?_, ?_⟩
      · simp only [parseLoop, readToken]
        rw [h2, h1, List.append_assoc]
      · intro i hi
        rcases List.mem_append.mp hi with h | h
        · exact hw1 i h
        · exact hw2 i h

theorem valuesNonEmpty_add (T : SymbolTable) (op : Operand) (reg value : String)
    (hT : valuesNonEmpty T) (hv : value ≠ "") :
    valuesNonEmpty (addArithmeticOperation T op reg value) := by
  intro r ops op2 v hr hmem
  by_cases h : r = reg
  · simp only [addArithmeticOperation, h, if_true, Option.some.injEq] at hr
    rw [← hr] at hmem
    rcases List.mem_append.mp hmem with hold | hnew
    · cases hreg : T reg with
      | none => simp [hreg] at hold
      | some ops0 =>
        rw [hreg] at hold
        exact hT reg ops0 op2 v hreg (by simpa using hold)
    · simp only [List.mem_singleton, Prod.mk.injEq] at hnew
      rw [hnew.2]
      exact hv
  · exact hT r ops op2 v (by simpa [addArithmeticOperation, h] using hr) hmem

theorem execute_valuesNonEmpty (fuel : Nat) :
    ∀ (Q : Instructions) (T : SymbolTable) (run : Run),
      (∀ i ∈ Q, nonEmptyFields i) → valuesNonEmpty T →
      execute fuel T Q = some run → valuesNonEmpty run.registers := by
  intro Q
  induction Q with
  | nil =>
    intro T run _ hT h
    simp only [execute, Option.some.injEq] at h
    subst h
    exact hT
  | cons i Q ih =>
    intro T run hQ hT h
    have hi := hQ i (List.mem_cons_self _ _)
    have hrest : ∀ j ∈ Q, nonEmptyFields j := fun j hj => hQ j (List.mem_cons_of_mem _ hj)
    obtain ⟨op, reg, value⟩ := i
    cases op with
    | QUIT =>
      simp only [execute, Option.some.injEq] at h
      subst h
      exact hT
    | PRINT =>
      simp only [execute] at h
      cases hp : printRegister T fuel reg with
      | none => simp [hp] at h
      | some pr =>
        obtain ⟨o, exn⟩ := pr
        rw [hp] at h
        cases exn with
        | some e =>
          simp only [Option.some.injEq] at h
          subst h
          exact hT
        | none =>
          simp only at h
          cases hrun : execute fuel T Q with
          | none => simp [hrun] at h
          | some run2 =>
            rw [hrun] at h
            simp only [Option.map_some', Option.some.injEq] at h
            subst h
            exact ih T run2 hrest hT hrun
    | ADD =>
      exact ih _ run hrest (valuesNonEmpty_add T _ reg value hT hi.2)
        (by simpa [execute] using h)
    | SUBTRACT =>
      exact ih _ run hrest (valuesNonEmpty_add T _ reg value hT hi.2)
        (by simpa [execute] using h)
    | MULTIPLY =>
      exact ih _ run hrest (valuesNonEmpty_add T _ reg value hT hi.2)
        (by simpa [execute] using h)

theorem built_valuesNonEmpty (T : SymbolTable) (hT : Built T) : valuesNonEmpty T := by
  induction hT with
  | start => intro r ops op v hr _; simp [emptyTable] at hr
  | round T2 text fuel run _ hrun ih =>
    obtain ⟨appended, happ, hne⟩ := parseLoop_nonEmptyFields (istream text).length []
      (istream text) (extractWords_ne_empty text.data [])
    have hq : ∀ i ∈ (parse [] (istream text)).1, nonEmptyFields i := by
      intro i hi
      have : (parse [] (istream text)).1 = appended := by simpa [parse] using happ
      rw [this] at hi
      exact hne i hi
    exact execute_valuesNonEmpty fuel _ T2 run hq ih hrun

theorem stol_ne_invalid_argument {tok : String} (h : tok ≠ "") :
    stol tok ≠ .error .invalid_argument := by
  unfold stol
  rw [if_neg (ne_empty_data h)]
  split
  · intro hc; cases hc
  · intro hc; cases hc

theorem evaluateOperations_no_invalid_argument
    {ev : String → Option (List Output × Eval)} :
    ∀ (ops : Operations),
      (∀ e ∈ ops, ∀ out, ev e.2 ≠ some (out, .thrown .invalid_argument)) →
      ∀ acc out, evaluateOperations ev ops acc ≠ some (out, .thrown .invalid_argument) := by
  intro ops
  induction ops with
  | nil => intro _ acc out h; simp [evaluateOperations] at h
  | cons p rest ih =>
    intro hall acc out h
    obtain ⟨operand, operandvalue⟩ := p
    have hp := hall (operand, operandvalue) (List.mem_cons_self _ _)
    simp only at hp
    simp only [evaluateOperations] at h
    cases hev : ev operandvalue with
    | none => simp [hev] at h
    | some q =>
      obtain ⟨o, res⟩ := q
      rw [hev] at h
      cases res with
      | ok val =>
        simp only at h
        cases hrest : evaluateOperations ev rest (applyOperand operand acc val) with
        | none => simp [hrest] at h
        | some q2 =>
          obtain ⟨o2, r2⟩ := q2
          rw [hrest] at h
          simp only [Option.some.injEq, Prod.mk.injEq] at h
          rw [h.2] at hrest
          exact ih (fun e he => hall e (List.mem_cons_of_mem _ he)) _ _ hrest
      | fail => simp at h
      | thrown e =>
        simp only [Option.some.injEq, Prod.mk.injEq, Eval.thrown.injEq] at h
        rw [h.2] at hev
        exact hp o hev

theorem evaluateValue_no_invalid_argument (T : SymbolTable) (hT : valuesNonEmpty T) :
    ∀ (fuel : Nat) (tok : String) (out : List Output), tok ≠ "" →
      evaluateValue T fuel tok ≠ some (out, .thrown .invalid_argument) := by
  intro fuel
  induction fuel with
  | zero => intro tok out _ h; simp [evaluateValue] at h
  | succ n ih =>
    intro tok out htok h
    rw [evaluateValue] at h
    split at h
    · have hs := stol_ne_invalid_argument htok
      split at h
      · simp at h
      · rename_i e hse
        simp only [Option.some.injEq, Prod.mk.injEq, Eval.thrown.injEq] at h
        rw [h.2] at hse
        exact hs hse
    · split at h
      · simp at h
      · rename_i ops hops
        exact evaluateOperations_no_invalid_argument ops
          (fun e he o => ih e.2 o (hT tok ops e.1 e.2 hops he)) 0 out h

/-- C24: every word that the parser reads from an input text, and the token it makes
of it, is not empty, so that in every instruction that a parse of the text appends the
register of a print and the register and the value of an arithmetic instruction are
not empty; hence no value token stored in a table built by rounds on input texts is
empty, and in an evaluation that starts from a token that is not empty no call of
`evaluateValue` is on the empty string, so that the evaluation never ends with the
exception that `std::stol` raises on the empty string, which `isNumber` accepts. -/
theorem tokens_not_empty (text : String) (q : Instructions) (T : SymbolTable)
    (hT : Built T) :
    (∀ w ∈ istream text, w ≠ "" ∧ toLower w ≠ "")
    ∧ (∃ appended, (parse q (istream text)).1 = q ++ appended
        ∧ ∀ i ∈ appended, nonEmptyFields i)
    ∧ valuesNonEmpty T
    ∧ (∀ tok s, tok ≠ "" → Called T tok s → s ≠ "")
    ∧ (∀ fuel tok out, tok ≠ "" →
        evaluateValue T fuel tok ≠ some (out, .thrown .invalid_argument))
    ∧ Token.isNumber "" = true := by
  have hwords := extractWords_ne_empty text.data []
  have hvalues := built_valuesNonEmpty T hT
  refine ⟨fun w hw => ⟨hwords w hw, toLower_ne_empty (hwords w hw)⟩,
    parseLoop_nonEmptyFields (istream text).length q (istream text) hwords,
    hvalues, ?_, evaluateValue_no_invalid_argument T hvalues, by decide⟩
  intro tok s htok hcalled
  induction hcalled with
  | start => exact htok
  | entry r ops op v _ hr hmem _ => exact hvalues r ops op v hr hmem

/-- C24 on the text `a add 5` and the table it builds. -/
theorem tokens_not_empty_witness :
    Built textRun.registers
    ∧ istream "a add 5" = ["a", "add", "5"]
    ∧ ((∀ w ∈ istream "a add 5", w ≠ "" ∧ toLower w ≠ "")
      ∧ (∃ appended, (parse [] (istream "a add 5")).1 = [] ++ appended
          ∧ ∀ i ∈ appended, nonEmptyFields i)
      ∧ valuesNonEmpty textRun.registers
      ∧ (∀ tok s, tok ≠ "" → Called textRun.registers tok s → s ≠ "")
      ∧ (∀ fuel tok out, tok ≠ "" →
          evaluateValue textRun.registers fuel tok ≠ some (out, .thrown .invalid_argument))
      ∧ Token.isNumber "" = true) :=
  have h : Built textRun.registers := Built.round emptyTable "a add 5" 0 textRun Built.start rfl
  ⟨h, by decide, tokens_not_empty "a add 5" [] textRun.registers h⟩

/-! ## Text behind a quit -/

theorem parseToken_queue (q : Instructions) (input : String) (rest : IStream) :
    parseToken q input rest
      = ⟨q ++ (parseToken [] input rest).instructions, (parseToken [] input rest).out,
          (parseToken [] input rest).inputstream⟩ := by
  unfold parseToken
  split
  · simp [addInstruction]
  · split
    · cases rest with
      | nil => simp [parsePrintInstruction, readRegister_nil]
      | cons t rest2 =>
        simp only [parsePrintInstruction, readRegister_cons]
        by_cases ht : Token.isRegister (toLower t) = true <;> simp [ht, addInstruction]
    · split
      · cases rest with
        | nil => simp [parseArithmeticInstruction, readArithmeticOperand_nil, readValue_nil]
        | cons t1 rest2 =>
          cases rest2 with
          | nil =>
            simp only [parseArithmeticInstruction, readArithmeticOperand_cons, readValue_nil]
            cases arithmeticKeyword (toLower t1) <;> simp
          | cons t2 rest3 =>
            simp only [parseArithmeticInstruction, readArithmeticOperand_cons, readValue_cons]
            cases arithmeticKeyword (toLower t1) <;>
              by_cases h2 : isValue (toLower t2) = true <;> simp [h2, addInstruction]
      · simp

theorem parseLoop_queue :
    ∀ (n : Nat) (q : Instructions) (s : IStream),
      parseLoop n q s = (q ++ (parseLoop n [] s).1, (parseLoop n [] s).2) := by
  intro n
  induction n with
  | zero => intro q s; simp [parseLoop]
  | succ m ih =>
    intro q s
    cases s with
    | nil => simp [parseLoop, readToken]
    | cons t rest =>
      simp only [parseLoop, readToken]
      rw [parseToken_queue q (toLower t) rest]
      simp only
      rw [ih (q ++ (parseToken [] (toLower t) rest).instructions),
        ih (parseToken [] (toLower t) rest).instructions]
      simp [List.append_assoc]

theorem parse_queue (q : Instructions) (s : IStream) :
    parse q s = (q ++ (parse [] s).1, (parse [] s).2) :=
  parseLoop_queue s.length q s

theorem parse_complete {pre : IStream} (hpre : Complete pre) :
    ∃ P : Instructions, hasQuit P = false
      ∧ ∀ q s, parse q (pre ++ s) = parse (q ++ P) s := by
  induction hpre with
  | nil => exact ⟨[], rfl, fun q s => by simp⟩
  | print p t rest hp ht _ ih =>
    obtain ⟨P, hP, hparse⟩ := ih
    refine ⟨(PRINT, toLower t, "") :: P, ?_, fun q s => ?_⟩
    · simpa [hasQuit, isQuit] using hP
    · have hq := not_quit_of_isPrintOperand hp
      have hstep : parseToken q (toLower p) (t :: (rest ++ s))
          = ⟨q ++ [(PRINT, toLower t, "")], [], rest ++ s⟩ := by
        simp [parseToken, hq, hp, parsePrintInstruction, readRegister_cons, ht, addInstruction]
      have happ : p :: t :: rest ++ s = p :: (t :: (rest ++ s)) := rfl
      rw [happ, parse_cons, hstep, emit_nil]
      simp only
      rw [hparse]
      simp [List.append_assoc]
  | arithmetic r t1 t2 rest hr h1 h2 _ ih =>
    obtain ⟨P, hP, hparse⟩ := ih
    obtain ⟨op, hop⟩ := Option.isSome_iff_exists.mp h1
    have hne : isQuit (op, toLower r, toLower t2) = false := by
      unfold arithmeticKeyword at hop
      split at hop
      · rw [← Option.some.inj hop]; rfl
      · split at hop
        · rw [← Option.some.inj hop]; rfl
        · split at hop
          · rw [← Option.some.inj hop]; rfl
          · cases hop
    refine ⟨(op, toLower r, toLower t2) :: P, ?_, fun q s => ?_⟩
    · simp only [hasQuit, List.any_cons, hne, Bool.false_or]
      exact hP
    · obtain ⟨hq, hp⟩ := not_keyword_of_isRegister hr
      have hstep : parseToken q (toLower r) (t1 :: t2 :: (rest ++ s))
          = ⟨q ++ [(op, toLower r, toLower t2)], [], rest ++ s⟩ := by
        simp [parseToken, hq, hp, hr, parseArithmeticInstruction, readArithmeticOperand_cons,
          readValue_cons, hop, h2, addInstruction]
      have happ : r :: t1 :: t2 :: rest ++ s = r :: (t1 :: t2 :: (rest ++ s)) := rfl
      rw [happ, parse_cons, hstep, emit_nil]
      simp only
      rw [hparse]
      simp [List.append_assoc]

theorem execute_behind_quit (fuel : Nat) (T : SymbolTable) (P A : Instructions)
    (hP : hasQuit P = false) :
    (execute fuel T (P ++ (QUIT, "", "") :: A)).map Run.outcome
      = (execute fuel T (P ++ [(QUIT, "", "")])).map Run.outcome := by
  have h1 := execute_append_cases fuel P T ((QUIT, "", "") :: A) hP
  have h2 := execute_append_cases fuel P T [(QUIT, "", "")] hP
  cases hrun : execute fuel T P with
  | none =>
    rw [hrun] at h1 h2
    simp only at h1 h2
    rw [h1, h2]
  | some first =>
    rw [hrun] at h1 h2
    simp only at h1 h2
    cases hs : first.signal with
    | threw e =>
      rw [hs] at h1 h2
      obtain ⟨w1, hw1, ho1⟩ := h1
      obtain ⟨w2, hw2, ho2⟩ := h2
      rw [hw1, hw2]
      simp [ho1, ho2]
    | returned b =>
      rw [hs] at h1 h2
      simp only at h1 h2
      rw [h1, h2]
      simp [execute, Run.outcome, Run.after]

/-- What does hold for text behind a quit: when `pre` makes up complete instructions
without a quit and `t` is a quit token, the round on `pre t rest` ends with the signal
and the symbol table of the round on `pre t`, and its output is the lines that the
parser writes on `rest` followed by the output of the round on `pre t`. -/
theorem runStream_behind_quit (fuel : Nat) (T : SymbolTable) (pre rest : IStream) (t : String)
    (hpre : Complete pre) (ht : Token.isQuitOperand (toLower t) = true) :
    (runStream fuel T (pre ++ t :: rest)).map Run.outcome
      = ((runStream fuel T (pre ++ [t])).map (Run.after (parse [] rest).2)).map
          Run.outcome := by
  obtain ⟨P, hP, hparse⟩ := parse_complete hpre
  have hquit : ∀ q s, parse q (t :: s) = parse (q ++ [(QUIT, "", "")]) s := by
    intro q s
    have hstep : parseToken q (toLower t) s = ⟨q ++ [(QUIT, "", "")], [], s⟩ := by
      simp [parseToken, ht, addInstruction]
    rw [parse_cons, hstep, emit_nil]
  have hlong : parse [] (pre ++ t :: rest)
      = (P ++ (QUIT, "", "") :: (parse [] rest).1, (parse [] rest).2) := by
    rw [hparse, hquit, parse_queue]
    simp
  have hshort : parse [] (pre ++ [t]) = (P ++ [(QUIT, "", "")], []) := by
    rw [hparse, hquit, parse_nil]
    simp
  have hex := execute_behind_quit fuel T P (parse [] rest).1 hP
  unfold runStream
  rw [hlong, hshort]
  simp only
  cases h1 : execute fuel T (P ++ (QUIT, "", "") :: (parse [] rest).1) with
  | none =>
    rw [h1] at hex
    cases h2 : execute fuel T (P ++ [(QUIT, "", "")]) with
    | none => rfl
    | some r2 => rw [h2] at hex; simp at hex
  | some r1 =>
    rw [h1] at hex
    cases h2 : execute fuel T (P ++ [(QUIT, "", "")]) with
    | none => rw [h2] at hex; simp at hex
    | some r2 =>
      rw [h2] at hex
      simp only [Option.map_some', Option.some.injEq, Run.outcome, Prod.mk.injEq] at hex
      simp [Run.outcome, Run.after, hex.1, hex.2.1, hex.2.2]

/-- C21 on the line `quit 5`: the round writes the line that `5` is an invalid start of
expression, while the round on the line `quit` writes nothing; both stop. The text
behind the quit is parsed, and its diagnostics are written, before the quit is
executed. -/
theorem quit_line_diagnostic :
    outputOf (runLine 0 emptyTable "quit 5") = some [.invalidStart "5"]
    ∧ outputOf (runLine 0 emptyTable "quit") = some []
    ∧ outputOf (runLine 0 emptyTable "quit 5") ≠ outputOf (runLine 0 emptyTable "quit")
    ∧ (runLine 0 emptyTable "quit 5").map (fun r => r.signal) = some (.returned false)
    ∧ (runLine 0 emptyTable "quit").map (fun r => r.signal) = some (.returned false) := by
  refine ⟨by decide, by decide, by decide, by decide, by decide⟩

end Calculator
